import Mathlib

/-!
BayesMallows: constrained proposals, pairwise augmentation, importance sampling.

A shallow embedding of `src/pairwise_comparisons.cpp` and
`src/importance_sampling.cpp`.

Conventions of the embedding.

* An Armadillo `vec` of ranks is a `List Int`; `v(i)` is `v.getD i 0`.  All
  indices that the source uses are in range for inputs of the right shape.
* An `Rcpp::List` of constraints for one assessor is `AssessorConstraints`:
  entry `[0]` is `constrained_items`, entry `[1]` the per-item lists
  `items_above`, entry `[2]` the per-item lists `items_below`.  Items are
  numbered from 1, so the source indexes with `k - 1`.
* Random draws are explicit arguments.  `randi(distr_param(a, b))` is `randi a b draw`:
  it yields `draw` when `a ≤ draw ≤ b` and nothing otherwise (Armadillo refuses an
  empty range).
* `as_scalar(find(...))` yields a value only when `find` returns exactly one index.
* C++ `double` arithmetic is exact arithmetic in an ordered field `K`; `std::log` is a
  parameter `log : K → K` (instantiated with `Real.log` where a claim needs it).
-/

namespace BayesMallows

/-- Constraints of one assessor (`Rcpp::List` with three entries). -/
structure AssessorConstraints where
  constrained_items : List Nat
  items_above : List (List Nat)
  items_below : List (List Nat)
deriving Repr, DecidableEq

/-- C++ conversion of a comparison result to `int`. -/
def b2i (b : Bool) : Int := if b then 1 else 0

/-- Armadillo `find(v == x)`: the indices at which `v` equals `x`, ascending. -/
def find_eq (v : List Int) (x : Int) : List Nat :=
  (List.range v.length).filter (fun i => decide (v.getD i 0 = x))

/-- Armadillo `as_scalar`: defined on one-element containers only. -/
def as_scalar {α : Type} : List α → Option α
  | [a] => some a
  | _ => none

/-- Outcome `draw` of `randi<int>(distr_param(a, b))`. -/
def randi (a b draw : Int) : Option Int :=
  if a ≤ draw ∧ draw ≤ b then some draw else none

/-- Armadillo `max` of a vector (only called on non-empty vectors). -/
def vec_max : List Int → Int
  | [] => 0
  | x :: xs => xs.foldl max x

/-- Armadillo `min` of a vector (only called on non-empty vectors). -/
def vec_min : List Int → Int
  | [] => 0
  | x :: xs => xs.foldl min x

/-- The source's `find_pairwise_limits`; the two reference arguments `left_limit` and
`right_limit` are passed in and returned as a pair. -/
def find_pairwise_limits (left_limit right_limit : Int) (item : Nat)
    (assessor_constraints : AssessorConstraints) (current_ranking : List Int) : Int × Int :=
  let items_above := assessor_constraints.items_above.getD (item - 1) []
  let items_below := assessor_constraints.items_below.getD (item - 1) []
  let left_limit :=
    if items_above.length > 0 then
      vec_max (items_above.map (fun k => current_ranking.getD (k - 1) 0))
    else left_limit
  let right_limit :=
    if items_below.length > 0 then
      vec_min (items_below.map (fun k => current_ranking.getD (k - 1) 0))
    else right_limit
  (left_limit, right_limit)

/-- Modelled from the spec: `shift_step` is declared in `leapandshift.h`, which is not part
of the available sources.  Following the spec, the shift pass "moves every other item whose
rank lies between the old and new rank of the selected item by exactly one position"
so that the "items between old and new position close the gap": with `old = ranking(u)` and
`new = proposal(u)`, an item `k ≠ u` with `old < ranking(k) ≤ new` moves down one rank, an
item with `new ≤ ranking(k) < old` moves up one rank, all other entries of `proposal` are
kept. -/
def shift_step (proposal ranking : List Int) (u : Nat) : List Int :=
  let old := ranking.getD u 0
  let new := proposal.getD u 0
  (List.range proposal.length).map (fun k =>
    if k = u then proposal.getD k 0
    else if old < ranking.getD k 0 ∧ ranking.getD k 0 ≤ new then proposal.getD k 0 - 1
    else if new ≤ ranking.getD k 0 ∧ ranking.getD k 0 < old then proposal.getD k 0 + 1
    else proposal.getD k 0)

/-- The leap of `propose_pairwise_augmentation` (the source's lines up to the draw of
`proposed_rank`): yields the local variables `item`, `left_limit`, `right_limit` and
`proposed_rank`.  `item_draw` and `rank_draw` are the outcomes of the two `randi` calls. -/
def leap_step (ranking : List Int) (assessor_constraints : AssessorConstraints)
    (item_draw rank_draw : Int) : Option (Nat × Int × Int × Int) := do
  let n_items : Int := ranking.length
  let item ← randi 0 (n_items - 1) item_draw
  let lim := find_pairwise_limits 0 (n_items + 1) (item.toNat + 1) assessor_constraints ranking
  let proposed_rank ← randi (lim.1 + 1) (lim.2 - 1) rank_draw
  pure (item.toNat, lim.1, lim.2, proposed_rank)

/-- The source's `propose_pairwise_augmentation`: the leap, the assignment
`proposal(item) = proposed_rank` on a copy of `ranking`, then the shift step. -/
def propose_pairwise_augmentation (ranking : List Int)
    (assessor_constraints : AssessorConstraints) (item_draw rank_draw : Int) :
    Option (List Int) := do
  let (item, _, _, proposed_rank) ← leap_step ranking assessor_constraints item_draw rank_draw
  let proposal := ranking.set item proposed_rank
  pure (shift_step proposal ranking item)

/-- One of the four accumulation loops of `propose_swap`:
`g_diff += (proposal(k - 1) > proposal(ind)) - (ranking(k - 1) > ranking(ind))` over `items`. -/
def g_loop_above (proposal ranking : List Int) (ind : Nat) (items : List Nat) (g_diff : Int) :
    Int :=
  items.foldl (fun g k =>
    g + (b2i (decide (proposal.getD (k - 1) 0 > proposal.getD ind 0))
        - b2i (decide (ranking.getD (k - 1) 0 > ranking.getD ind 0)))) g_diff

/-- The loops over `items_below`:
`g_diff += (proposal(k - 1) < proposal(ind)) - (ranking(k - 1) < ranking(ind))`. -/
def g_loop_below (proposal ranking : List Int) (ind : Nat) (items : List Nat) (g_diff : Int) :
    Int :=
  items.foldl (fun g k =>
    g + (b2i (decide (proposal.getD (k - 1) 0 < proposal.getD ind 0))
        - b2i (decide (ranking.getD (k - 1) 0 < ranking.getD ind 0)))) g_diff

/-- The source's `propose_swap`; `draw` is the outcome of its `randi` call, the reference
argument `g_diff` is passed in and returned next to the proposal.  As in the source, the
two loops for the second item read `items_above`/`items_below` of `ind2` but compare with
`proposal(ind1)` and `ranking(ind1)`. -/
def propose_swap (ranking : List Int) (assessor_constraints : AssessorConstraints)
    (g_diff : Int) (Lswap : Int) (draw : Int) : Option (List Int × Int) := do
  let n_items : Int := ranking.length
  let u ← randi 1 (n_items - Lswap) draw
  let ind1 ← as_scalar (find_eq ranking u)
  let ind2 ← as_scalar (find_eq ranking (u + Lswap))
  let proposal := (ranking.set ind1 (ranking.getD ind2 0)).set ind2 (ranking.getD ind1 0)
  -- First consider the first item that was switched
  let items_above := assessor_constraints.items_above.getD ind1 []
  let items_below := assessor_constraints.items_below.getD ind1 []
  let g_diff := g_loop_above proposal ranking ind1 items_above g_diff
  let g_diff := g_loop_below proposal ranking ind1 items_below g_diff
  -- Now consider the second item
  let items_above := assessor_constraints.items_above.getD ind2 []
  let items_below := assessor_constraints.items_below.getD ind2 []
  let g_diff := g_loop_above proposal ranking ind1 items_above g_diff
  let g_diff := g_loop_below proposal ranking ind1 items_below g_diff
  pure (proposal, g_diff)

/-- The ranks `1, …, n`. -/
def ranks (n : Nat) : List Int := (List.range n).map (fun (i : Nat) => (i : Int) + 1)

/-- A ranking is a permutation of `1..n_items`. -/
def IsPermutation (r : List Int) : Prop := List.Perm r (ranks r.length)

instance (r : List Int) : Decidable (IsPermutation r) := by
  unfold IsPermutation; infer_instance

/-- The value accumulated in `g_diff` by the four loops of `propose_swap`, for swapped
indices `ind1`, `ind2`. -/
def swap_g_diff (proposal ranking : List Int) (c : AssessorConstraints) (ind1 ind2 : Nat)
    (g_diff : Int) : Int :=
  g_loop_below proposal ranking ind1 (c.items_below.getD ind2 [])
    (g_loop_above proposal ranking ind1 (c.items_above.getD ind2 [])
      (g_loop_below proposal ranking ind1 (c.items_below.getD ind1 [])
        (g_loop_above proposal ranking ind1 (c.items_above.getD ind1 []) g_diff)))

/-- Number of constraint violations around item `s` (index) in ranking `r`, as the claim
about `g_diff` words it: the entries `k` of `items_above[s]` with `r(k) > r(s)` plus the
entries `k` of `items_below[s]` with `r(k) < r(s)`. -/
def violations (c : AssessorConstraints) (r : List Int) (s : Nat) : Int :=
  ((c.items_above.getD s []).countP (fun k => decide (r.getD (k - 1) 0 > r.getD s 0)) : Nat)
  + ((c.items_below.getD s []).countP (fun k => decide (r.getD (k - 1) 0 < r.getD s 0)) : Nat)

/-- The count `V(r)` over both swapped items. -/
def swap_violations (c : AssessorConstraints) (r : List Int) (ind1 ind2 : Nat) : Int :=
  violations c r ind1 + violations c r ind2

/-- How a call can fail: `Rcpp::stop` with a message, or a failed Armadillo run-time check
(`as_scalar` of a container without exactly one element, `randi` on an empty range). -/
inductive Failure where
  | stop (msg : String)
  | arma
deriving Repr, DecidableEq

/-- Armadillo `mat` holding one ranking per column. -/
structure Mat where
  n_rows : Nat
  cols : List (List Int)
deriving Repr, DecidableEq

/-- The random draws consumed while one assessor is processed in `augment_pairwise`: the two
`randi` outcomes of the leap-and-shift move, the `randi` outcome of the swap move, and the
outcome of `randu<double>()`. -/
structure Draws (K : Type) where
  item_draw : Int
  rank_draw : Int
  swap_draw : Int
  unif : K

/-- The by-reference arguments `rankings` and `aug_acceptance` of `augment_pairwise`. -/
structure AugState where
  rankings : Mat
  aug_acceptance : List Int
deriving Repr, DecidableEq

/-- The proposal branch of `augment_pairwise` ("Sample a proposal, depending on the error
model"), with `g_diff` starting at `0`. -/
def sample_proposal (error_model : String) (ranking : List Int) (c : AssessorConstraints)
    (Lswap : Int) (item_draw rank_draw swap_draw : Int) : Except Failure (List Int × Int) :=
  let g_diff : Int := 0
  if error_model = "none" then
    match propose_pairwise_augmentation ranking c item_draw rank_draw with
    | some proposal => Except.ok (proposal, g_diff)
    | none => Except.error Failure.arma
  else if error_model = "bernoulli" then
    match propose_swap ranking c g_diff Lswap swap_draw with
    | some pg => Except.ok pg
    | none => Except.error Failure.arma
  else
    Except.error (Failure.stop "error_model must be \x27none\x27 or \x27bernoulli\x27")

/-- The log acceptance ratio of `augment_pairwise`:
`-alpha(cluster) / n_items * (d(proposal, rho) - d(ranking, rho))`, plus
`g_diff * log(theta / (1 - theta))` when `(theta > 0) & (g_diff != 0)`.  The function
`get_rank_distance` (from `distances.h`) is a parameter. -/
def acceptance_ratio {K : Type} [LinearOrderedField K] (log : K → K)
    (get_rank_distance : List Int → List Int → String → K) (alpha_cluster : K)
    (n_items : Nat) (theta : K) (rho_cluster : List Int) (metric : String)
    (ranking proposal : List Int) (g_diff : Int) : K :=
  let ratio := -alpha_cluster / (n_items : K) *
    (get_rank_distance proposal rho_cluster metric - get_rank_distance ranking rho_cluster metric)
  if theta > 0 ∧ g_diff ≠ 0 then ratio + (g_diff : K) * log (theta / (1 - theta)) else ratio

/-- The body of the loop of `augment_pairwise` for assessor `i`. -/
def augment_pairwise_step {K : Type} [LinearOrderedField K] (log : K → K)
    (get_rank_distance : List Int → List Int → String → K)
    (current_cluster_assignment : List Nat) (alpha : List K) (theta : K)
    (rho : List (List Int)) (metric : String) (constraints : List AssessorConstraints)
    (error_model : String) (Lswap : Int) (draws : Nat → Draws K)
    (st : AugState) (i : Nat) : Except Failure AugState :=
  let n_items := st.rankings.n_rows
  let ranking := st.rankings.cols.getD i []
  match sample_proposal error_model ranking (constraints.getD i ⟨[], [], []⟩) Lswap
      (draws i).item_draw (draws i).rank_draw (draws i).swap_draw with
  | Except.error e => Except.error e
  | Except.ok (proposal, g_diff) =>
    let u := log (draws i).unif
    let cluster := current_cluster_assignment.getD i 0
    let ratio := acceptance_ratio log get_rank_distance (alpha.getD cluster 0) n_items theta
      (rho.getD cluster []) metric ranking proposal g_diff
    if ratio > u then
      Except.ok
        { rankings := { st.rankings with cols := st.rankings.cols.set i proposal },
          aug_acceptance := st.aug_acceptance.set i (st.aug_acceptance.getD i 0 + 1) }
    else
      Except.ok st

/-- The loop of `augment_pairwise` over the assessors still to be processed.  A failure
leaves the by-reference arguments as they are at that moment. -/
def augment_pairwise_loop {K : Type} [LinearOrderedField K] (log : K → K)
    (get_rank_distance : List Int → List Int → String → K)
    (current_cluster_assignment : List Nat) (alpha : List K) (theta : K)
    (rho : List (List Int)) (metric : String) (constraints : List AssessorConstraints)
    (error_model : String) (Lswap : Int) (draws : Nat → Draws K) :
    List Nat → AugState → AugState × Option Failure
  | [], st => (st, none)
  | i :: rest, st =>
    match augment_pairwise_step log get_rank_distance current_cluster_assignment alpha theta
        rho metric constraints error_model Lswap draws st i with
    | Except.error e => (st, some e)
    | Except.ok st1 =>
      augment_pairwise_loop log get_rank_distance current_cluster_assignment alpha theta
        rho metric constraints error_model Lswap draws rest st1

/-- The source's `augment_pairwise`: the final values of `rankings` and `aug_acceptance`,
and the failure that ended the call, if any. -/
def augment_pairwise {K : Type} [LinearOrderedField K] (log : K → K)
    (get_rank_distance : List Int → List Int → String → K)
    (rankings : Mat) (current_cluster_assignment : List Nat) (alpha : List K) (theta : K)
    (rho : List (List Int)) (metric : String) (constraints : List AssessorConstraints)
    (aug_acceptance : List Int) (error_model : String) (Lswap : Int)
    (draws : Nat → Draws K) : AugState × Option Failure :=
  let n_assessors := rankings.cols.length
  augment_pairwise_loop log get_rank_distance current_cluster_assignment alpha theta
    rho metric constraints error_model Lswap draws (List.range n_assessors)
    { rankings := rankings, aug_acceptance := aug_acceptance }

/-- What the iteration for assessor `i` does, between the values `old` of the by-reference
arguments before it and `new` after it: a proposal is drawn from column `i` of `old`; if
`log(unif) < ratio` then column `i` becomes the proposal and counter `i` grows by one,
otherwise both stay as they were. -/
def StepOutcome {K : Type} [LinearOrderedField K] (log : K → K)
    (get_rank_distance : List Int → List Int → String → K)
    (current_cluster_assignment : List Nat) (alpha : List K) (theta : K)
    (rho : List (List Int)) (metric : String) (constraints : List AssessorConstraints)
    (error_model : String) (Lswap : Int) (draws : Nat → Draws K)
    (old new : AugState) (i : Nat) : Prop :=
  ∃ p g,
    sample_proposal error_model (old.rankings.cols.getD i [])
      (constraints.getD i ⟨[], [], []⟩) Lswap (draws i).item_draw (draws i).rank_draw
      (draws i).swap_draw = Except.ok (p, g) ∧
    (log (draws i).unif < acceptance_ratio log get_rank_distance
        (alpha.getD (current_cluster_assignment.getD i 0) 0) old.rankings.n_rows theta
        (rho.getD (current_cluster_assignment.getD i 0) []) metric
        (old.rankings.cols.getD i []) p g →
      new.rankings.cols.getD i [] = p ∧
      new.aug_acceptance.getD i 0 = old.aug_acceptance.getD i 0 + 1) ∧
    (¬ log (draws i).unif < acceptance_ratio log get_rank_distance
        (alpha.getD (current_cluster_assignment.getD i 0) 0) old.rankings.n_rows theta
        (rho.getD (current_cluster_assignment.getD i 0) []) metric
        (old.rankings.cols.getD i []) p g →
      new.rankings.cols.getD i [] = old.rankings.cols.getD i [] ∧
      new.aug_acceptance.getD i 0 = old.aug_acceptance.getD i 0)

/-- Column `i` and counter `i` are either both unchanged, or the column is the proposal
drawn from the old column and the counter has grown by exactly one. -/
def KeptOrAccepted (constraints : List AssessorConstraints) (error_model : String)
    (Lswap : Int) (item_draw rank_draw swap_draw : Int) (old new : AugState) (i : Nat) :
    Prop :=
  (new.rankings.cols.getD i [] = old.rankings.cols.getD i [] ∧
    new.aug_acceptance.getD i 0 = old.aug_acceptance.getD i 0) ∨
  (∃ p g,
    sample_proposal error_model (old.rankings.cols.getD i [])
      (constraints.getD i ⟨[], [], []⟩) Lswap item_draw rank_draw swap_draw
      = Except.ok (p, g) ∧
    new.rankings.cols.getD i [] = p ∧
    new.aug_acceptance.getD i 0 = old.aug_acceptance.getD i 0 + 1)

/-- The loop of `update_shape_bernoulli` over `items_above`:
`g = (rankings(j, i) < rankings(items_above(k) - 1, i)); sum_1 += g; sum_2 += 1 - g`.
`col` is column `i` of `rankings`, the pair is `(sum_1, sum_2)`. -/
def shape_loop_above (col : List Int) (j : Nat) (items_above : List Nat) (sums : Int × Int) :
    Int × Int :=
  items_above.foldl (fun s k =>
    (s.1 + b2i (decide (col.getD j 0 < col.getD (k - 1) 0)),
     s.2 + (1 - b2i (decide (col.getD j 0 < col.getD (k - 1) 0))))) sums

/-- The loop of `update_shape_bernoulli` over `items_below`:
`g = (rankings(j, i) > rankings(items_below(k) - 1, i)); sum_1 += g; sum_2 += 1 - g`. -/
def shape_loop_below (col : List Int) (j : Nat) (items_below : List Nat) (sums : Int × Int) :
    Int × Int :=
  items_below.foldl (fun s k =>
    (s.1 + b2i (decide (col.getD j 0 > col.getD (k - 1) 0)),
     s.2 + (1 - b2i (decide (col.getD j 0 > col.getD (k - 1) 0))))) sums

/-- The counters `(sum_1, sum_2)` of `update_shape_bernoulli` after its loops. -/
def shape_sums (rankings : Mat) (constraints : List AssessorConstraints) : Int × Int :=
  let n_items := rankings.n_rows
  let n_assessors := rankings.cols.length
  (List.range n_assessors).foldl (fun s i =>
    let assessor_constraints := constraints.getD i ⟨[], [], []⟩
    (List.range n_items).foldl (fun s j =>
      let items_above := assessor_constraints.items_above.getD j []
      let items_below := assessor_constraints.items_below.getD j []
      shape_loop_below (rankings.cols.getD i []) j items_below
        (shape_loop_above (rankings.cols.getD i []) j items_above s)) s) (0, 0)

/-- The source's `update_shape_bernoulli`; the result is the pair of new values of the
reference arguments `(shape_1, shape_2)`. -/
def update_shape_bernoulli {K : Type} [LinearOrderedField K] (_shape_1 _shape_2 : K)
    (kappa_1 kappa_2 : K) (rankings : Mat) (constraints : List AssessorConstraints) : K × K :=
  let sums := shape_sums rankings constraints
  (kappa_1 + (sums.1 : K), kappa_2 + (sums.2 : K))

/-- Comparisons of item `j` concordant with its constraints in the ranking `col`: the item
required to be above has the smaller rank. -/
def concordant_at (col : List Int) (c : AssessorConstraints) (j : Nat) : Nat :=
  (c.items_above.getD j []).countP (fun k => decide (col.getD (k - 1) 0 < col.getD j 0))
  + (c.items_below.getD j []).countP (fun k => decide (col.getD j 0 < col.getD (k - 1) 0))

/-- Comparisons of item `j` discordant with its constraints in the ranking `col`: the item
required to be above has the larger rank. -/
def discordant_at (col : List Int) (c : AssessorConstraints) (j : Nat) : Nat :=
  (c.items_above.getD j []).countP (fun k => decide (col.getD (k - 1) 0 > col.getD j 0))
  + (c.items_below.getD j []).countP (fun k => decide (col.getD j 0 > col.getD (k - 1) 0))

/-- Comparisons of item `j` that are not discordant: the item required to be above does
not have the larger rank. -/
def not_discordant_at (col : List Int) (c : AssessorConstraints) (j : Nat) : Nat :=
  (c.items_above.getD j []).countP (fun k => decide (col.getD (k - 1) 0 ≤ col.getD j 0))
  + (c.items_below.getD j []).countP (fun k => decide (col.getD j 0 ≤ col.getD (k - 1) 0))

/-- Sum of a per-item count over all assessors and all items. -/
def count_over (f : List Int → AssessorConstraints → Nat → Nat) (rankings : Mat)
    (constraints : List AssessorConstraints) : Nat :=
  ((List.range rankings.cols.length).map (fun i =>
    ((List.range rankings.n_rows).map (fun j =>
      f (rankings.cols.getD i []) (constraints.getD i ⟨[], [], []⟩) j)).sum)).sum

/-- The number `C` of concordant comparisons over all assessors and constrained pairs. -/
def concordant_count (rankings : Mat) (constraints : List AssessorConstraints) : Nat :=
  count_over concordant_at rankings constraints

/-- The number `D` of discordant comparisons over all assessors and constrained pairs. -/
def discordant_count (rankings : Mat) (constraints : List AssessorConstraints) : Nat :=
  count_over discordant_at rankings constraints

/-- The number of comparisons that are not discordant. -/
def not_discordant_count (rankings : Mat) (constraints : List AssessorConstraints) : Nat :=
  count_over not_discordant_at rankings constraints

/-- No compared pair of items has equal ranks. -/
def NoTies (rankings : Mat) (constraints : List AssessorConstraints) : Prop :=
  ∀ i, i < rankings.cols.length → ∀ j, j < rankings.n_rows →
    (∀ k ∈ (constraints.getD i ⟨[], [], []⟩).items_above.getD j [],
      (rankings.cols.getD i []).getD (k - 1) 0 ≠ (rankings.cols.getD i []).getD j 0) ∧
    (∀ k ∈ (constraints.getD i ⟨[], [], []⟩).items_below.getD j [],
      (rankings.cols.getD i []).getD (k - 1) 0 ≠ (rankings.cols.getD i []).getD j 0)

instance (rankings : Mat) (constraints : List AssessorConstraints) :
    Decidable (NoTies rankings constraints) := by
  unfold NoTies; infer_instance

/-- A loop that fills a vector with one value per element of `l`; it fails as soon as one
iteration fails. -/
def collect {α β : Type} (f : α → Option β) : List α → Option (List β)
  | [] => some []
  | x :: xs =>
    match f x with
    | none => none
    | some y =>
      match collect f xs with
      | none => none
      | some ys => some (y :: ys)

/-- The random draws of one Monte Carlo sample of `compute_importance_sampling_estimate`:
the outcome of `randu(n_items)` and the outcome of `randperm<ivec>(n_items)`. -/
structure SampleDraws (K : Type) where
  u : List K
  myind : List Nat

/-- Running sums, started from `acc`. -/
def cumsum_from {K : Type} [LinearOrderedField K] (acc : K) : List K → List K
  | [] => []
  | x :: xs => (acc + x) :: cumsum_from (acc + x) xs

/-- Armadillo `cumsum` of a vector. -/
def cumsum {K : Type} [LinearOrderedField K] (v : List K) : List K := cumsum_from 0 v

/-- Armadillo `find(v > x, 1)`: the first index at which `v` exceeds `x`, if there is one. -/
def find_first_gt {K : Type} [LinearOrderedField K] (v : List K) (x : K) : List Nat :=
  ((List.range v.length).filter (fun i => decide (v.getD i 0 > x))).take 1

/-- Armadillo `find(support != 0)`. -/
def find_nonzero (support : List Int) : List Nat :=
  (List.range support.length).filter (fun i => decide (support.getD i 0 ≠ 0))

/-- Armadillo `max` of a vector of reals; it refuses an empty vector. -/
def max_of {K : Type} [LinearOrderedField K] : List K → Option K
  | [] => none
  | x :: xs => some (xs.foldl max x)

/-- The vector `log_prob` of one pass of the loop over `j` in
`compute_importance_sampling_estimate`, for the free ranks `inds` and the item `jj`:
`- alpha / n_items * pow(abs(r1 - r2), p)` with `p = 1` for footrule and `2` otherwise,
then normalised by subtracting `log(accu(exp(log_prob)))`.  `std::exp` and `std::log` are
the parameters `exp` and `log`. -/
def log_prob_vec {K : Type} [LinearOrderedField K] (exp log : K → K) (alpha : K)
    (n_items : Nat) (metric : String) (rho : List Int) (inds : List Nat) (jj : Nat) :
    List K :=
  let r1 : List K := inds.map (fun (i : Nat) => (i : K) + 1)
  let r2 : K := ((rho.getD jj 0 : Int) : K)
  let log_prob := r1.map (fun x =>
    -alpha / (n_items : K) * |x - r2| ^ (if metric = "footrule" then 1 else 2))
  log_prob.map (fun x => x - log ((log_prob.map exp).sum))

/-- One pass of the loop over `j`: the state is `(support, ranks, log_q)`, `jj = myind(j)`
and `u` holds the outcome of `randu(n_items)` (the source compares with its logarithm). -/
def sample_rank_step {K : Type} [LinearOrderedField K] (exp log : K → K) (alpha : K)
    (n_items : Nat) (metric : String) (rho : List Int) (u : List K) (jj : Nat)
    (st : List Int × List Int × K) : Option (List Int × List Int × K) :=
  let support := st.1
  let inds := find_nonzero support
  let log_prob := log_prob_vec exp log alpha n_items metric rho inds jj
  let log_cpd := (cumsum (log_prob.map exp)).map log
  match as_scalar (find_first_gt log_cpd (log (u.getD jj 0))) with
  | none => none
  | some item_index =>
    let rank : Int := (inds.getD item_index 0 : Int) + 1
    some (support.set (rank - 1).toNat 0, st.2.1.set jj rank,
      st.2.2 + log_prob.getD item_index 0)

/-- The loop over `j` for the items `myind(j)` still to be placed. -/
def sample_ranks_loop {K : Type} [LinearOrderedField K] (exp log : K → K) (alpha : K)
    (n_items : Nat) (metric : String) (rho : List Int) (u : List K) :
    List Nat → List Int × List Int × K → Option (List Int × List Int × K)
  | [], st => some st
  | jj :: rest, st =>
    match sample_rank_step exp log alpha n_items metric rho u jj st with
    | none => none
    | some st1 => sample_ranks_loop exp log alpha n_items metric rho u rest st1

/-- One Monte Carlo sample: the value stored in `partfun(i)`.  `get_rank_distance` (from
`distances.h`) is a parameter. -/
def sample_partfun {K : Type} [LinearOrderedField K] (exp log : K → K)
    (get_rank_distance : List Int → List Int → String → K) (alpha : K) (n_items : Nat)
    (metric : String) (draws : SampleDraws K) : Option K :=
  let rho := ranks n_items
  let support := ranks n_items
  let ranks0 : List Int := List.replicate n_items 0
  let myind := (List.range n_items).map (fun j => draws.myind.getD j 0)
  match sample_ranks_loop exp log alpha n_items metric rho draws.u myind
      (support, ranks0, 0) with
  | none => none
  | some st =>
    some (-alpha / (n_items : K) * get_rank_distance st.2.1 rho metric - st.2.2)

/-- The average over the Monte Carlo samples in log space:
`maxval + log(accu(exp(partfun - maxval))) - log(nmc)` with `maxval = max(partfun)`. -/
def log_mean_exp {K : Type} [LinearOrderedField K] (exp log : K → K) (partfun : List K)
    (nmc : Nat) : Option K :=
  match max_of partfun with
  | none => none
  | some maxval =>
    some (maxval + log ((partfun.map (fun p => exp (p - maxval))).sum) - log (nmc : K))

/-- The vector `partfun` for one value of `alpha`; `draws i` are the draws of sample `i`. -/
def partfun_vec {K : Type} [LinearOrderedField K] (exp log : K → K)
    (get_rank_distance : List Int → List Int → String → K) (alpha : K) (n_items : Nat)
    (metric : String) (nmc : Nat) (draws : Nat → SampleDraws K) : Option (List K) :=
  collect (fun i =>
    sample_partfun exp log get_rank_distance alpha n_items metric (draws i))
    (List.range nmc)

/-- One pass of the loop over the values of alpha: the value stored in `logZ(t)`. -/
def logZ_entry {K : Type} [LinearOrderedField K] (exp log : K → K)
    (get_rank_distance : List Int → List Int → String → K) (alpha : K) (n_items : Nat)
    (metric : String) (nmc : Nat) (draws : Nat → SampleDraws K) : Option K :=
  match partfun_vec exp log get_rank_distance alpha n_items metric nmc draws with
  | none => none
  | some partfun => log_mean_exp exp log partfun nmc

/-- The source's `compute_importance_sampling_estimate`; `draws t i` are the random draws of
sample `i` for the `t`-th value of alpha. -/
def compute_importance_sampling_estimate {K : Type} [LinearOrderedField K] (exp log : K → K)
    (get_rank_distance : List Int → List Int → String → K) (alpha_vector : List K)
    (n_items : Nat) (metric : String) (nmc : Nat) (draws : Nat → Nat → SampleDraws K) :
    Option (List K) :=
  collect (fun t =>
    logZ_entry exp log get_rank_distance (alpha_vector.getD t 0) n_items metric nmc (draws t))
    (List.range alpha_vector.length)

/-- The draws of one Monte Carlo sample are admissible: one uniform draw strictly between
`0` and `1` per item, and an item order that is a permutation of `0..n_items-1`. -/
def AdmissibleDraws (n_items : Nat) (d : SampleDraws ℝ) : Prop :=
  d.u.length = n_items ∧ (∀ x ∈ d.u, 0 < x ∧ x < 1) ∧
    List.Perm d.myind (List.range n_items)

/-- Rank assigned by a leap from `old` to `new` followed by the shift, to an item whose
current rank is `x` (auxiliary description of the composed move on rank values). -/
def leap_shift_rank (old new x : Int) : Int :=
  if x = old then new
  else if old < x ∧ x ≤ new then x - 1
  else if new ≤ x ∧ x < old then x + 1
  else x

/-- Rank assigned by swapping the ranks `a` and `b`, to an item whose current rank is `x`. -/
def swap_rank (a b x : Int) : Int :=
  if x = a then b else if x = b then a else x

/-- The ranking satisfies the assessor's constraints: every item in `items_above[j]` has a
smaller rank than item `j`, every item in `items_below[j]` a larger rank. -/
def SatisfiesConstraints (r : List Int) (c : AssessorConstraints) : Prop :=
  ∀ j, j < r.length →
    (∀ k ∈ c.items_above.getD j [], r.getD (k - 1) 0 < r.getD j 0) ∧
    (∀ k ∈ c.items_below.getD j [], r.getD j 0 < r.getD (k - 1) 0)

instance (r : List Int) (c : AssessorConstraints) : Decidable (SatisfiesConstraints r c) := by
  unfold SatisfiesConstraints; infer_instance

/-- Every entry of the above/below lists of the first `n` items is an item number in
`1..n`. -/
def WellFormed (n : Nat) (c : AssessorConstraints) : Prop :=
  ∀ j, j < n →
    (∀ k ∈ c.items_above.getD j [], 1 ≤ k ∧ k ≤ n) ∧
    (∀ k ∈ c.items_below.getD j [], 1 ≤ k ∧ k ≤ n)

instance (n : Nat) (c : AssessorConstraints) : Decidable (WellFormed n c) := by
  unfold WellFormed; infer_instance

/-- The above and below lists are mutually consistent: item `k + 1` is in the above list
of item `j + 1` iff item `j + 1` is in the below list of item `k + 1`. -/
def Consistent (n : Nat) (c : AssessorConstraints) : Prop :=
  ∀ j, j < n → ∀ k, k < n →
    ((k + 1) ∈ c.items_above.getD j [] ↔ (j + 1) ∈ c.items_below.getD k [])

instance (n : Nat) (c : AssessorConstraints) : Decidable (Consistent n c) := by
  unfold Consistent; infer_instance

/-- Number of entries of the above and the below list of item `j`: the comparisons that
the two inner loops of `update_shape_bernoulli` visit for this item. -/
def entries_at (_col : List Int) (c : AssessorConstraints) (j : Nat) : Nat :=
  (c.items_above.getD j []).length + (c.items_below.getD j []).length

/-- Number of comparisons that the loops of `update_shape_bernoulli` visit. -/
def compared_count (rankings : Mat) (constraints : List AssessorConstraints) : Nat :=
  count_over entries_at rankings constraints

/-- The number `N`: the total number of entries in all `items_above` and `items_below`
lists of all assessors. -/
def total_entries (constraints : List AssessorConstraints) : Nat :=
  (constraints.map (fun c =>
    (c.items_above.map List.length).sum + (c.items_below.map List.length).sum)).sum

/-- The constraint list has the shape of the rankings matrix: one entry per assessor
(column), each with one above list and one below list per item (row). -/
def ShapedFor (rankings : Mat) (constraints : List AssessorConstraints) : Prop :=
  constraints.length = rankings.cols.length ∧
  ∀ c ∈ constraints,
    c.items_above.length = rankings.n_rows ∧ c.items_below.length = rankings.n_rows

instance (rankings : Mat) (constraints : List AssessorConstraints) :
    Decidable (ShapedFor rankings constraints) := by
  unfold ShapedFor; infer_instance

/-! ## Auxiliary facts about vectors of ranks -/

theorem mem_ranks {n : Nat} {x : Int} : x ∈ ranks n ↔ 1 ≤ x ∧ x ≤ n := by
  unfold ranks
  simp only [List.mem_map, List.mem_range]
  constructor
  · rintro ⟨i, hi, rfl⟩
    omega
  · rintro ⟨h1, h2⟩
    exact ⟨(x - 1).toNat, by omega, by omega⟩

theorem nodup_ranks (n : Nat) : (ranks n).Nodup := by
  unfold ranks
  exact List.Nodup.map (fun a b h => by simpa using h) (List.nodup_range n)

theorem length_ranks (n : Nat) : (ranks n).length = n := by
  simp [ranks]

theorem isPermutation_nodup {r : List Int} (h : IsPermutation r) : r.Nodup :=
  (List.Perm.nodup_iff h).2 (nodup_ranks _)

theorem isPermutation_mem_iff {r : List Int} (h : IsPermutation r) {x : Int} :
    x ∈ r ↔ 1 ≤ x ∧ x ≤ r.length := by
  rw [List.Perm.mem_iff h, mem_ranks]

theorem getD_mem {r : List Int} {i : Nat} (h : i < r.length) : r.getD i 0 ∈ r := by
  rw [List.getD_eq_getElem r 0 h]
  exact List.getElem_mem h

theorem exists_index_of_mem {r : List Int} {x : Int} (h : x ∈ r) :
    ∃ i, i < r.length ∧ r.getD i 0 = x := by
  obtain ⟨i, hi, hx⟩ := List.mem_iff_getElem.1 h
  exact ⟨i, hi, by rw [List.getD_eq_getElem r 0 hi, hx]⟩

theorem getD_inj {r : List Int} (hnd : r.Nodup) {i j : Nat} (hi : i < r.length)
    (hj : j < r.length) (h : r.getD i 0 = r.getD j 0) : i = j := by
  rw [List.getD_eq_getElem r 0 hi, List.getD_eq_getElem r 0 hj] at h
  exact (List.Nodup.getElem_inj_iff hnd).1 h

theorem find_eq_getD {r : List Int} (hnd : r.Nodup) {i : Nat} (hi : i < r.length) :
    find_eq r (r.getD i 0) = [i] := by
  unfold find_eq
  have h1 : List.filter (fun j => decide (r.getD j 0 = r.getD i 0)) (List.range r.length)
      = List.filter (fun j => j == i) (List.range r.length) := by
    apply List.filter_congr
    intro j hj
    have hj2 : j < r.length := List.mem_range.1 hj
    by_cases hji : j = i
    · subst hji; simp
    · have : r.getD j 0 ≠ r.getD i 0 := fun h => hji (getD_inj hnd hj2 hi h)
      rw [decide_eq_false this]
      simp [hji]
  rw [h1, List.filter_beq]
  have h2 : List.count i (List.range r.length) = 1 :=
    List.count_eq_one_of_mem (List.nodup_range _) (List.mem_range.2 hi)
  rw [h2]
  rfl

theorem getD_set_self {r : List Int} {i : Nat} (x : Int) (hi : i < r.length) :
    (r.set i x).getD i 0 = x := by
  rw [List.getD_eq_getElem?_getD, List.getElem?_set]
  simp [hi]

theorem getD_set_ne {r : List Int} {i k : Nat} (x : Int) (hik : i ≠ k) :
    (r.set i x).getD k 0 = r.getD k 0 := by
  rw [List.getD_eq_getElem?_getD, List.getElem?_set, List.getD_eq_getElem?_getD]
  simp [hik]

theorem propose_swap_eq {r : List Int} (c : AssessorConstraints) (g0 L u : Int)
    (hp : IsPermutation r) (hL : 1 ≤ L) (hu1 : 1 ≤ u) (hu2 : u ≤ (r.length : Int) - L) :
    ∃ i1 i2, i1 < r.length ∧ i2 < r.length ∧ i1 ≠ i2 ∧ r.getD i1 0 = u ∧
      r.getD i2 0 = u + L ∧
      propose_swap r c g0 L u =
        some ((r.set i1 (u + L)).set i2 u,
          swap_g_diff ((r.set i1 (u + L)).set i2 u) r c i1 i2 g0) := by
  have hm1 : u ∈ r := (isPermutation_mem_iff hp).2 ⟨hu1, by omega⟩
  have hm2 : u + L ∈ r := (isPermutation_mem_iff hp).2 ⟨by omega, by omega⟩
  obtain ⟨i1, hi1, h1⟩ := exists_index_of_mem hm1
  obtain ⟨i2, hi2, h2⟩ := exists_index_of_mem hm2
  have hne : i1 ≠ i2 := by
    intro h
    rw [h, h2] at h1
    omega
  refine ⟨i1, i2, hi1, hi2, hne, h1, h2, ?_⟩
  have hf1 : find_eq r u = [i1] := by
    rw [← h1]; exact find_eq_getD (isPermutation_nodup hp) hi1
  have hf2 : find_eq r (u + L) = [i2] := by
    rw [← h2]; exact find_eq_getD (isPermutation_nodup hp) hi2
  have hr : randi 1 ((r.length : Int) - L) u = some u := by
    unfold randi
    rw [if_pos ⟨hu1, hu2⟩]
  unfold propose_swap
  simp only [hr, hf1, hf2, as_scalar, Option.bind_eq_bind, Option.some_bind, h1, h2,
    swap_g_diff, Option.pure_def]

theorem isPermutation_count_eq_one {r : List Int} (h : IsPermutation r) {v : Int}
    (h1 : 1 ≤ v) (h2 : v ≤ r.length) : r.count v = 1 :=
  List.count_eq_one_of_mem (isPermutation_nodup h) ((isPermutation_mem_iff h).2 ⟨h1, h2⟩)

theorem isPermutation_getD_bounds {r : List Int} (h : IsPermutation r) (j : Nat) :
    0 ≤ r.getD j 0 ∧ r.getD j 0 ≤ r.length := by
  by_cases hj : j < r.length
  · have := (isPermutation_mem_iff h).1 (getD_mem hj)
    omega
  · rw [List.getD_eq_default r 0 (by omega)]
    omega

/-- A vector obtained entrywise from a permutation through a map that is injective
on `1..n` and keeps `1..n` is again a permutation. -/
theorem isPermutation_of_getD {r q : List Int} (f : Int → Int) (hp : IsPermutation r)
    (hlen : q.length = r.length)
    (hget : ∀ k, k < r.length → q.getD k 0 = f (r.getD k 0))
    (hrange : ∀ x : Int, 1 ≤ x → x ≤ r.length → 1 ≤ f x ∧ f x ≤ r.length)
    (hinj : ∀ x y : Int, 1 ≤ x → x ≤ r.length → 1 ≤ y → y ≤ r.length → f x = f y → x = y) :
    IsPermutation q := by
  have hq : q = r.map f := by
    apply List.ext_getElem (by simp [hlen])
    intro k h1 h2
    have hk : k < r.length := by omega
    have := hget k hk
    rw [List.getD_eq_getElem q 0 h1, List.getD_eq_getElem r 0 hk] at this
    rw [this, List.getElem_map]
  unfold IsPermutation
  rw [hlen, hq]
  refine List.Perm.trans (List.Perm.map f hp) ?_
  have hnd : ((ranks r.length).map f).Nodup := by
    apply List.Nodup.map_on _ (nodup_ranks _)
    intro x hx y hy hxy
    rw [mem_ranks] at hx hy
    exact hinj x y hx.1 hx.2 hy.1 hy.2 hxy
  have hsub : (ranks r.length).map f ⊆ ranks r.length := by
    intro y hy
    obtain ⟨x, hx, rfl⟩ := List.mem_map.1 hy
    rw [mem_ranks] at hx ⊢
    exact hrange x hx.1 hx.2
  exact List.Subperm.perm_of_length_le (List.subperm_of_subset hnd hsub) (by simp)

theorem swap_getD {r : List Int} (hnd : r.Nodup) {i1 i2 : Nat} (hi1 : i1 < r.length)
    (hi2 : i2 < r.length) (hne : i1 ≠ i2) (k : Nat) (hk : k < r.length) :
    ((r.set i1 (r.getD i2 0)).set i2 (r.getD i1 0)).getD k 0
      = swap_rank (r.getD i1 0) (r.getD i2 0) (r.getD k 0) := by
  unfold swap_rank
  by_cases hk2 : k = i2
  · subst hk2
    rw [getD_set_self _ (by simpa using hk)]
    have : r.getD k 0 ≠ r.getD i1 0 := fun h => hne (getD_inj hnd hk hi1 h).symm
    rw [if_neg this, if_pos rfl]
  · rw [getD_set_ne _ (Ne.symm hk2)]
    by_cases hk1 : k = i1
    · subst hk1
      rw [getD_set_self _ hk, if_pos rfl]
    · rw [getD_set_ne _ (Ne.symm hk1)]
      have h1 : r.getD k 0 ≠ r.getD i1 0 := fun h => hk1 (getD_inj hnd hk hi1 h)
      have h2 : r.getD k 0 ≠ r.getD i2 0 := fun h => hk2 (getD_inj hnd hk hi2 h)
      rw [if_neg h1, if_neg h2]

theorem shift_step_getD {r : List Int} (hnd : r.Nodup) {i : Nat} (hi : i < r.length)
    (new : Int) (k : Nat) (hk : k < r.length) :
    (shift_step (r.set i new) r i).getD k 0
      = leap_shift_rank (r.getD i 0) new (r.getD k 0) := by
  unfold shift_step leap_shift_rank
  rw [List.getD_eq_getElem _ 0 (by simpa using hk), List.getElem_map, List.getElem_range,
    getD_set_self new hi]
  by_cases hki : k = i
  · subst hki
    rw [getD_set_self new hk, if_pos rfl, if_pos rfl]
  · have h1 : r.getD k 0 ≠ r.getD i 0 := fun h => hki (getD_inj hnd hk hi h)
    rw [getD_set_ne new (Ne.symm hki), if_neg hki, if_neg h1]

theorem length_shift_step (p r : List Int) (u : Nat) : (shift_step p r u).length = p.length := by
  simp [shift_step]

theorem leap_shift_rank_range {n old new : Int} (ho1 : 1 ≤ old) (ho2 : old ≤ n)
    (hn1 : 1 ≤ new) (hn2 : new ≤ n) (x : Int) (hx1 : 1 ≤ x) (hx2 : x ≤ n) :
    1 ≤ leap_shift_rank old new x ∧ leap_shift_rank old new x ≤ n := by
  unfold leap_shift_rank
  split_ifs <;> omega

theorem leap_shift_rank_inj {old new x y : Int}
    (h : leap_shift_rank old new x = leap_shift_rank old new y) : x = y := by
  unfold leap_shift_rank at h
  split_ifs at h <;> omega

theorem swap_rank_inj {a b x y : Int} (h : swap_rank a b x = swap_rank a b y) : x = y := by
  unfold swap_rank at h
  split_ifs at h <;> omega

theorem foldl_max_ge {α : Type} [LinearOrder α] (l : List α) (a : α) :
    a ≤ l.foldl max a ∧ ∀ x ∈ l, x ≤ l.foldl max a := by
  induction l generalizing a with
  | nil => simp
  | cons y ys ih =>
    simp only [List.foldl_cons, List.mem_cons, forall_eq_or_imp]
    obtain ⟨h1, h2⟩ := ih (max a y)
    exact ⟨le_trans (le_max_left a y) h1, le_trans (le_max_right a y) h1, h2⟩

theorem foldl_max_mem {α : Type} [LinearOrder α] (l : List α) (a : α) :
    l.foldl max a = a ∨ l.foldl max a ∈ l := by
  induction l generalizing a with
  | nil => simp
  | cons y ys ih =>
    simp only [List.foldl_cons, List.mem_cons]
    rcases ih (max a y) with h | h
    · rcases max_choice a y with h2 | h2
      · left; rw [h, h2]
      · right; left; rw [h, h2]
    · right; right; exact h

theorem foldl_min_le {α : Type} [LinearOrder α] (l : List α) (a : α) :
    l.foldl min a ≤ a ∧ ∀ x ∈ l, l.foldl min a ≤ x := by
  induction l generalizing a with
  | nil => simp
  | cons y ys ih =>
    simp only [List.foldl_cons, List.mem_cons, forall_eq_or_imp]
    obtain ⟨h1, h2⟩ := ih (min a y)
    exact ⟨le_trans h1 (min_le_left a y), le_trans h1 (min_le_right a y), h2⟩

theorem foldl_min_mem {α : Type} [LinearOrder α] (l : List α) (a : α) :
    l.foldl min a = a ∨ l.foldl min a ∈ l := by
  induction l generalizing a with
  | nil => simp
  | cons y ys ih =>
    simp only [List.foldl_cons, List.mem_cons]
    rcases ih (min a y) with h | h
    · rcases min_choice a y with h2 | h2
      · left; rw [h, h2]
      · right; left; rw [h, h2]
    · right; right; exact h

theorem vec_max_mem {l : List Int} (h : l ≠ []) : vec_max l ∈ l := by
  cases l with
  | nil => exact absurd rfl h
  | cons x xs =>
    simp only [vec_max, List.mem_cons]
    exact foldl_max_mem xs x

theorem le_vec_max {l : List Int} {x : Int} (h : x ∈ l) : x ≤ vec_max l := by
  cases l with
  | nil => simp at h
  | cons y ys =>
    simp only [vec_max]
    rcases List.mem_cons.1 h with h | h
    · rw [h]; exact (foldl_max_ge ys y).1
    · exact (foldl_max_ge ys y).2 x h

theorem vec_min_mem {l : List Int} (h : l ≠ []) : vec_min l ∈ l := by
  cases l with
  | nil => exact absurd rfl h
  | cons x xs =>
    simp only [vec_min, List.mem_cons]
    exact foldl_min_mem xs x

theorem vec_min_le {l : List Int} {x : Int} (h : x ∈ l) : vec_min l ≤ x := by
  cases l with
  | nil => simp at h
  | cons y ys =>
    simp only [vec_min]
    rcases List.mem_cons.1 h with h | h
    · rw [h]; exact (foldl_min_le ys y).1
    · exact (foldl_min_le ys y).2 x h

theorem find_pairwise_limits_fst (l0 r0 : Int) (item : Nat) (c : AssessorConstraints)
    (r : List Int) :
    (find_pairwise_limits l0 r0 item c r).1 =
      if (c.items_above.getD (item - 1) []).length > 0 then
        vec_max ((c.items_above.getD (item - 1) []).map (fun k => r.getD (k - 1) 0))
      else l0 := rfl

theorem find_pairwise_limits_snd (l0 r0 : Int) (item : Nat) (c : AssessorConstraints)
    (r : List Int) :
    (find_pairwise_limits l0 r0 item c r).2 =
      if (c.items_below.getD (item - 1) []).length > 0 then
        vec_min ((c.items_below.getD (item - 1) []).map (fun k => r.getD (k - 1) 0))
      else r0 := rfl

theorem find_pairwise_limits_bounds {r : List Int} (hp : IsPermutation r) (item : Nat)
    (c : AssessorConstraints) :
    0 ≤ (find_pairwise_limits 0 ((r.length : Int) + 1) item c r).1 ∧
      (find_pairwise_limits 0 ((r.length : Int) + 1) item c r).2 ≤ (r.length : Int) + 1 := by
  rw [find_pairwise_limits_fst, find_pairwise_limits_snd]
  constructor
  · split_ifs with h
    · have hne : (c.items_above.getD (item - 1) []).map (fun k => r.getD (k - 1) 0) ≠ [] := by
        intro h0
        rw [List.map_eq_nil_iff] at h0
        rw [h0] at h
        simp at h
      obtain ⟨k, _, hk⟩ := List.mem_map.1 (vec_max_mem hne)
      rw [← hk]
      exact (isPermutation_getD_bounds hp _).1
    · exact le_refl 0
  · split_ifs with h
    · have hne : (c.items_below.getD (item - 1) []).map (fun k => r.getD (k - 1) 0) ≠ [] := by
        intro h0
        rw [List.map_eq_nil_iff] at h0
        rw [h0] at h
        simp at h
      obtain ⟨k, _, hk⟩ := List.mem_map.1 (vec_min_mem hne)
      rw [← hk]
      have := (isPermutation_getD_bounds hp (k - 1)).2
      omega
    · exact le_refl _

theorem leap_step_eq (r : List Int) (c : AssessorConstraints) (item_draw rank_draw : Int)
    (h0 : 0 ≤ item_draw) (h1 : item_draw ≤ (r.length : Int) - 1)
    (h2 : (find_pairwise_limits 0 ((r.length : Int) + 1) (item_draw.toNat + 1) c r).1 + 1
      ≤ rank_draw)
    (h3 : rank_draw
      ≤ (find_pairwise_limits 0 ((r.length : Int) + 1) (item_draw.toNat + 1) c r).2 - 1) :
    leap_step r c item_draw rank_draw =
      some (item_draw.toNat,
        (find_pairwise_limits 0 ((r.length : Int) + 1) (item_draw.toNat + 1) c r).1,
        (find_pairwise_limits 0 ((r.length : Int) + 1) (item_draw.toNat + 1) c r).2,
        rank_draw) := by
  have hr1 : randi 0 ((r.length : Int) - 1) item_draw = some item_draw := by
    unfold randi
    rw [if_pos ⟨h0, h1⟩]
  have hr2 : randi
      ((find_pairwise_limits 0 ((r.length : Int) + 1) (item_draw.toNat + 1) c r).1 + 1)
      ((find_pairwise_limits 0 ((r.length : Int) + 1) (item_draw.toNat + 1) c r).2 - 1)
      rank_draw = some rank_draw := by
    unfold randi
    rw [if_pos ⟨h2, h3⟩]
  unfold leap_step
  simp only [hr1, hr2, Option.bind_eq_bind, Option.some_bind, Option.pure_def]

theorem propose_pairwise_augmentation_eq (r : List Int) (c : AssessorConstraints)
    (item_draw rank_draw : Int)
    (h0 : 0 ≤ item_draw) (h1 : item_draw ≤ (r.length : Int) - 1)
    (h2 : (find_pairwise_limits 0 ((r.length : Int) + 1) (item_draw.toNat + 1) c r).1 + 1
      ≤ rank_draw)
    (h3 : rank_draw
      ≤ (find_pairwise_limits 0 ((r.length : Int) + 1) (item_draw.toNat + 1) c r).2 - 1) :
    propose_pairwise_augmentation r c item_draw rank_draw =
      some (shift_step (r.set item_draw.toNat rank_draw) r item_draw.toNat) := by
  unfold propose_pairwise_augmentation
  rw [leap_step_eq r c item_draw rank_draw h0 h1 h2 h3]
  rfl

theorem leap_shift_rank_lt {old new a b : Int} (hab : a < b) (h1 : b = old → a < new)
    (h2 : a = old → new < b) : leap_shift_rank old new a < leap_shift_rank old new b := by
  unfold leap_shift_rank
  split_ifs <;> omega

theorem find_pairwise_limits_max_min (left_limit right_limit : Int) (item : Nat)
    (c : AssessorConstraints) (r : List Int) :
    (c.items_above.getD (item - 1) [] ≠ [] →
      (∃ k ∈ c.items_above.getD (item - 1) [],
        (find_pairwise_limits left_limit right_limit item c r).1 = r.getD (k - 1) 0) ∧
      ∀ k ∈ c.items_above.getD (item - 1) [],
        r.getD (k - 1) 0 ≤ (find_pairwise_limits left_limit right_limit item c r).1) ∧
    (c.items_below.getD (item - 1) [] ≠ [] →
      (∃ k ∈ c.items_below.getD (item - 1) [],
        (find_pairwise_limits left_limit right_limit item c r).2 = r.getD (k - 1) 0) ∧
      ∀ k ∈ c.items_below.getD (item - 1) [],
        (find_pairwise_limits left_limit right_limit item c r).2 ≤ r.getD (k - 1) 0) := by
  constructor
  · intro hne
    have hlen : (c.items_above.getD (item - 1) []).length > 0 := List.length_pos.2 hne
    rw [find_pairwise_limits_fst, if_pos hlen]
    have hne2 : (c.items_above.getD (item - 1) []).map (fun k => r.getD (k - 1) 0) ≠ [] := by
      intro h0
      exact hne (List.map_eq_nil_iff.1 h0)
    constructor
    · obtain ⟨k, hk, hk2⟩ := List.mem_map.1 (vec_max_mem hne2)
      exact ⟨k, hk, hk2.symm⟩
    · intro k hk
      exact le_vec_max (List.mem_map.2 ⟨k, hk, rfl⟩)
  · intro hne
    have hlen : (c.items_below.getD (item - 1) []).length > 0 := List.length_pos.2 hne
    rw [find_pairwise_limits_snd, if_pos hlen]
    have hne2 : (c.items_below.getD (item - 1) []).map (fun k => r.getD (k - 1) 0) ≠ [] := by
      intro h0
      exact hne (List.map_eq_nil_iff.1 h0)
    constructor
    · obtain ⟨k, hk, hk2⟩ := List.mem_map.1 (vec_min_mem hne2)
      exact ⟨k, hk, hk2.symm⟩
    · intro k hk
      exact vec_min_le (List.mem_map.2 ⟨k, hk, rfl⟩)

/-! ## Claims -/

/-- C1: every output of the constrained proposals is a valid permutation of `1..n_items`.
For a ranking that is a permutation of `1..n_items`, (a) for every admissible pair of
draws (item in `[0, n_items - 1]`, rank in `[left_limit + 1, right_limit - 1]`) the
leap-and-shift move `propose_pairwise_augmentation` returns a candidate that is a
permutation of `1..n_items`, each value occurring exactly once; (b) for `1 ≤ Lswap ≤
n_items - 1` and every draw `u` in `[1, n_items - Lswap]` the swap move `propose_swap`
returns a candidate that is a permutation of `1..n_items`.  Part (a) does not need the
ranking to satisfy the constraints. -/
theorem constrained_proposal_is_permutation (r : List Int) (c : AssessorConstraints)
    (hp : IsPermutation r) :
    (∀ item_draw rank_draw : Int, 0 ≤ item_draw → item_draw ≤ (r.length : Int) - 1 →
      (find_pairwise_limits 0 ((r.length : Int) + 1) (item_draw.toNat + 1) c r).1 + 1
        ≤ rank_draw →
      rank_draw
        ≤ (find_pairwise_limits 0 ((r.length : Int) + 1) (item_draw.toNat + 1) c r).2 - 1 →
      ∃ q, propose_pairwise_augmentation r c item_draw rank_draw = some q ∧
        q.length = r.length ∧ IsPermutation q ∧
        ∀ v : Int, 1 ≤ v → v ≤ r.length → q.count v = 1) ∧
    (∀ g_diff Lswap u : Int, 1 ≤ Lswap → Lswap ≤ (r.length : Int) - 1 → 1 ≤ u →
      u ≤ (r.length : Int) - Lswap →
      ∃ q g, propose_swap r c g_diff Lswap u = some (q, g) ∧
        q.length = r.length ∧ IsPermutation q ∧
        ∀ v : Int, 1 ≤ v → v ≤ r.length → q.count v = 1) := by
  constructor
  · intro item_draw rank_draw h0 h1 h2 h3
    refine ⟨_, propose_pairwise_augmentation_eq r c item_draw rank_draw h0 h1 h2 h3, ?_⟩
    have hi : item_draw.toNat < r.length := by omega
    have hlen : (shift_step (r.set item_draw.toNat rank_draw) r item_draw.toNat).length
        = r.length := by
      rw [length_shift_step, List.length_set]
    have hb := find_pairwise_limits_bounds hp (item_draw.toNat + 1) c
    have ho := (isPermutation_mem_iff hp).1 (getD_mem hi)
    have hperm : IsPermutation
        (shift_step (r.set item_draw.toNat rank_draw) r item_draw.toNat) := by
      apply isPermutation_of_getD (leap_shift_rank (r.getD item_draw.toNat 0) rank_draw) hp hlen
      · intro k hk
        exact shift_step_getD (isPermutation_nodup hp) hi rank_draw k hk
      · intro x hx1 hx2
        exact leap_shift_rank_range ho.1 ho.2 (by omega) (by omega) x hx1 hx2
      · intro x y _ _ _ _ h
        exact leap_shift_rank_inj h
    refine ⟨hlen, hperm, ?_⟩
    intro v hv1 hv2
    exact isPermutation_count_eq_one hperm hv1 (by rw [hlen]; exact hv2)
  · intro g_diff Lswap u hL1 _ hu1 hu2
    obtain ⟨i1, i2, hi1, hi2, hne, h1, h2, heq⟩ := propose_swap_eq c g_diff Lswap u hp hL1 hu1 hu2
    refine ⟨_, _, heq, ?_⟩
    have hlen : ((r.set i1 (u + Lswap)).set i2 u).length = r.length := by
      rw [List.length_set, List.length_set]
    have hperm : IsPermutation ((r.set i1 (u + Lswap)).set i2 u) := by
      apply isPermutation_of_getD (swap_rank u (u + Lswap)) hp hlen
      · intro k hk
        have := swap_getD (isPermutation_nodup hp) hi1 hi2 hne k hk
        rw [h1, h2] at this
        exact this
      · intro x hx1 hx2
        unfold swap_rank
        split_ifs <;> omega
      · intro x y _ _ _ _ h
        exact swap_rank_inj h
    refine ⟨hlen, hperm, ?_⟩
    intro v hv1 hv2
    exact isPermutation_count_eq_one hperm hv1 (by rw [hlen]; exact hv2)

theorem constrained_proposal_is_permutation_witness :
    IsPermutation [3, 1, 4, 2] ∧
    (∃ q, propose_pairwise_augmentation [3, 1, 4, 2]
        ⟨[2, 3], [[], [], [2], []], [[], [3], [], []]⟩ 1 3 = some q ∧ IsPermutation q) ∧
    (∃ q g, propose_swap [3, 1, 4, 2]
        ⟨[2, 3], [[], [], [2], []], [[], [3], [], []]⟩ 0 2 1 = some (q, g) ∧
        IsPermutation q) := by
  have hp : IsPermutation [3, 1, 4, 2] := by decide
  have h := constrained_proposal_is_permutation [3, 1, 4, 2]
    ⟨[2, 3], [[], [], [2], []], [[], [3], [], []]⟩ hp
  refine ⟨hp, ?_, ?_⟩
  · obtain ⟨q, hq, _, hq2, _⟩ := h.1 1 3 (by decide) (by decide) (by decide) (by decide)
    exact ⟨q, hq, hq2⟩
  · obtain ⟨q, g, hq, _, hq2, _⟩ := h.2 0 2 1 (by decide) (by decide) (by decide) (by decide)
    exact ⟨q, g, hq, hq2⟩

/-- C3: `propose_swap` swaps exactly the items holding ranks `u` and `u + Lswap`.  For a
permutation ranking, `1 ≤ Lswap ≤ n_items - 1` and a draw `u` in `[1, n_items - Lswap]`,
the call returns a proposal; with `ind1` the item that held rank `u` and `ind2` the item
that held rank `u + Lswap`, the proposal gives rank `u + Lswap` to `ind1`, rank `u` to
`ind2`, and every other item keeps its rank of the input ranking (which, being an
argument of a pure function, is not modified). -/
theorem propose_swap_swaps_ranks (r : List Int) (c : AssessorConstraints)
    (g_diff Lswap u : Int) (hp : IsPermutation r) (hL1 : 1 ≤ Lswap)
    (_hL2 : Lswap ≤ (r.length : Int) - 1) (hu1 : 1 ≤ u)
    (hu2 : u ≤ (r.length : Int) - Lswap) :
    ∃ q g ind1 ind2, propose_swap r c g_diff Lswap u = some (q, g) ∧
      ind1 < r.length ∧ ind2 < r.length ∧ r.getD ind1 0 = u ∧ r.getD ind2 0 = u + Lswap ∧
      q.length = r.length ∧ q.getD ind1 0 = u + Lswap ∧ q.getD ind2 0 = u ∧
      ∀ k, k ≠ ind1 → k ≠ ind2 → q.getD k 0 = r.getD k 0 := by
  obtain ⟨i1, i2, hi1, hi2, hne, h1, h2, heq⟩ := propose_swap_eq c g_diff Lswap u hp hL1 hu1 hu2
  refine ⟨_, _, i1, i2, heq, hi1, hi2, h1, h2, ?_, ?_, ?_, ?_⟩
  · rw [List.length_set, List.length_set]
  · rw [getD_set_ne _ (Ne.symm hne), getD_set_self _ hi1]
  · rw [getD_set_self _ (by rw [List.length_set]; exact hi2)]
  · intro k hk1 hk2
    rw [getD_set_ne _ (Ne.symm hk2), getD_set_ne _ (Ne.symm hk1)]

theorem propose_swap_swaps_ranks_witness :
    ∃ q g ind1 ind2, propose_swap [3, 1, 4, 2]
        ⟨[2, 3], [[], [], [2], []], [[], [3], [], []]⟩ 0 2 1 = some (q, g) ∧
      ind1 < 4 ∧ ind2 < 4 ∧ ([3, 1, 4, 2] : List Int).getD ind1 0 = 1 ∧
      ([3, 1, 4, 2] : List Int).getD ind2 0 = 1 + 2 ∧
      q.length = 4 ∧ q.getD ind1 0 = 1 + 2 ∧ q.getD ind2 0 = 1 ∧
      ∀ k, k ≠ ind1 → k ≠ ind2 → q.getD k 0 = ([3, 1, 4, 2] : List Int).getD k 0 :=
  propose_swap_swaps_ranks [3, 1, 4, 2] ⟨[2, 3], [[], [], [2], []], [[], [3], [], []]⟩ 0 2 1
    (by decide) (by decide) (by decide) (by decide) (by decide)

/-- C10: `find_pairwise_limits` computes the leap interval from the current ranking.
If `items_above[item]` is non-empty, `left_limit` becomes the maximum current rank among
those items (it is the rank of one of them and no rank among them exceeds it), otherwise
it keeps the caller's value; if `items_below[item]` is non-empty, `right_limit` becomes
the minimum current rank among those items, otherwise it keeps the caller's value.  In
`propose_pairwise_augmentation` the limits are computed from the initial values `0` and
`n_items + 1` for the drawn item, every drawn `proposed_rank` satisfies
`left_limit < proposed_rank < right_limit`, and every draw in
`[left_limit + 1, right_limit - 1]` is returned as the proposed rank. -/
theorem find_pairwise_limits_spec (left_limit right_limit : Int) (item : Nat)
    (c : AssessorConstraints) (r : List Int) :
    (c.items_above.getD (item - 1) [] ≠ [] →
      (∃ k ∈ c.items_above.getD (item - 1) [],
        (find_pairwise_limits left_limit right_limit item c r).1 = r.getD (k - 1) 0) ∧
      ∀ k ∈ c.items_above.getD (item - 1) [],
        r.getD (k - 1) 0 ≤ (find_pairwise_limits left_limit right_limit item c r).1) ∧
    (c.items_above.getD (item - 1) [] = [] →
      (find_pairwise_limits left_limit right_limit item c r).1 = left_limit) ∧
    (c.items_below.getD (item - 1) [] ≠ [] →
      (∃ k ∈ c.items_below.getD (item - 1) [],
        (find_pairwise_limits left_limit right_limit item c r).2 = r.getD (k - 1) 0) ∧
      ∀ k ∈ c.items_below.getD (item - 1) [],
        (find_pairwise_limits left_limit right_limit item c r).2 ≤ r.getD (k - 1) 0) ∧
    (c.items_below.getD (item - 1) [] = [] →
      (find_pairwise_limits left_limit right_limit item c r).2 = right_limit) ∧
    (∀ (item_draw rank_draw : Int) (it : Nat) (l rr proposed_rank : Int),
      leap_step r c item_draw rank_draw = some (it, l, rr, proposed_rank) →
      (it : Int) = item_draw ∧ 0 ≤ item_draw ∧ item_draw ≤ (r.length : Int) - 1 ∧
      (l, rr) = find_pairwise_limits 0 ((r.length : Int) + 1) (it + 1) c r ∧
      proposed_rank = rank_draw ∧ l < proposed_rank ∧ proposed_rank < rr) ∧
    (∀ item_draw rank_draw : Int, 0 ≤ item_draw → item_draw ≤ (r.length : Int) - 1 →
      (find_pairwise_limits 0 ((r.length : Int) + 1) (item_draw.toNat + 1) c r).1 < rank_draw →
      rank_draw < (find_pairwise_limits 0 ((r.length : Int) + 1) (item_draw.toNat + 1) c r).2 →
      leap_step r c item_draw rank_draw =
        some (item_draw.toNat,
          (find_pairwise_limits 0 ((r.length : Int) + 1) (item_draw.toNat + 1) c r).1,
          (find_pairwise_limits 0 ((r.length : Int) + 1) (item_draw.toNat + 1) c r).2,
          rank_draw)) := by
  refine ⟨(find_pairwise_limits_max_min left_limit right_limit item c r).1, ?_,
    (find_pairwise_limits_max_min left_limit right_limit item c r).2, ?_, ?_, ?_⟩
  · intro h
    rw [find_pairwise_limits_fst, h]
    rfl
  · intro h
    rw [find_pairwise_limits_snd, h]
    rfl
  · intro item_draw rank_draw it l rr pr h
    unfold leap_step at h
    by_cases h1 : 0 ≤ item_draw ∧ item_draw ≤ (r.length : Int) - 1
    · have hr1 : randi 0 ((r.length : Int) - 1) item_draw = some item_draw := by
        unfold randi
        rw [if_pos h1]
      simp only [hr1, Option.bind_eq_bind, Option.some_bind] at h
      by_cases h2 :
          (find_pairwise_limits 0 ((r.length : Int) + 1) (item_draw.toNat + 1) c r).1 + 1
            ≤ rank_draw ∧
          rank_draw
            ≤ (find_pairwise_limits 0 ((r.length : Int) + 1) (item_draw.toNat + 1) c r).2 - 1
      · have hr2 : randi
            ((find_pairwise_limits 0 ((r.length : Int) + 1) (item_draw.toNat + 1) c r).1 + 1)
            ((find_pairwise_limits 0 ((r.length : Int) + 1) (item_draw.toNat + 1) c r).2 - 1)
            rank_draw = some rank_draw := by
          unfold randi
          rw [if_pos h2]
        simp only [hr2, Option.some_bind, Option.pure_def, Option.some.injEq,
          Prod.mk.injEq] at h
        obtain ⟨hit, hl, hrr, hpr⟩ := h
        have hit2 : (it : Int) = item_draw := by omega
        rw [hit] at hl hrr h2
        refine ⟨hit2, h1.1, h1.2, ?_, hpr.symm, ?_, ?_⟩
        · rw [← hl, ← hrr]
        · omega
        · omega
      · have hr2 : randi
            ((find_pairwise_limits 0 ((r.length : Int) + 1) (item_draw.toNat + 1) c r).1 + 1)
            ((find_pairwise_limits 0 ((r.length : Int) + 1) (item_draw.toNat + 1) c r).2 - 1)
            rank_draw = none := by
          unfold randi
          rw [if_neg h2]
        simp [hr2] at h
    · have hr1 : randi 0 ((r.length : Int) - 1) item_draw = none := by
        unfold randi
        rw [if_neg h1]
      simp [hr1] at h
  · intro item_draw rank_draw h0 h1 h2 h3
    exact leap_step_eq r c item_draw rank_draw h0 h1 (by omega) (by omega)

theorem find_pairwise_limits_spec_witness :
    (∃ k ∈ [2],
      (find_pairwise_limits 0 5 3 ⟨[2, 3], [[], [], [2], []], [[], [3], [], []]⟩
        [3, 1, 4, 2]).1 = ([3, 1, 4, 2] : List Int).getD (k - 1) 0) ∧
    ∀ k ∈ [2], ([3, 1, 4, 2] : List Int).getD (k - 1) 0 ≤
      (find_pairwise_limits 0 5 3 ⟨[2, 3], [[], [], [2], []], [[], [3], [], []]⟩
        [3, 1, 4, 2]).1 :=
  (find_pairwise_limits_spec 0 5 3 ⟨[2, 3], [[], [], [2], []], [[], [3], [], []]⟩
    [3, 1, 4, 2]).1 (by decide)

/-- C2: the leap-and-shift proposal respects the assessor's pairwise-preference
constraints.  For a permutation ranking that satisfies all constraints of the assessor,
with above/below lists over the items `1..n_items` that are mutually consistent, for every
drawn item and every rank drawn in `[left_limit + 1, right_limit - 1]`, the ranking
returned by `propose_pairwise_augmentation` (leap, then the shift of the items between the
old and the new rank by one position) again satisfies all constraints. -/
theorem leap_and_shift_respects_constraints (r : List Int) (c : AssessorConstraints)
    (item_draw rank_draw : Int) (hp : IsPermutation r) (hwf : WellFormed r.length c)
    (hcons : Consistent r.length c) (hsat : SatisfiesConstraints r c)
    (h0 : 0 ≤ item_draw) (h1 : item_draw ≤ (r.length : Int) - 1)
    (h2 : (find_pairwise_limits 0 ((r.length : Int) + 1) (item_draw.toNat + 1) c r).1 + 1
      ≤ rank_draw)
    (h3 : rank_draw
      ≤ (find_pairwise_limits 0 ((r.length : Int) + 1) (item_draw.toNat + 1) c r).2 - 1) :
    ∃ q, propose_pairwise_augmentation r c item_draw rank_draw = some q ∧
      SatisfiesConstraints q c := by
  refine ⟨_, propose_pairwise_augmentation_eq r c item_draw rank_draw h0 h1 h2 h3, ?_⟩
  have hi : item_draw.toNat < r.length := by omega
  generalize item_draw.toNat = i at hi h2 h3
  have hlen : (shift_step (r.set i rank_draw) r i).length = r.length := by
    rw [length_shift_step, List.length_set]
  have hspec := find_pairwise_limits_max_min 0 ((r.length : Int) + 1) (i + 1) c r
  rw [Nat.add_sub_cancel] at hspec
  obtain ⟨hA, hB⟩ := hspec
  -- items above the chosen item stay left of the new rank
  have hleft : ∀ k ∈ c.items_above.getD i [], r.getD (k - 1) 0 < rank_draw := by
    intro k hk
    have := (hA (List.ne_nil_of_mem hk)).2 k hk
    omega
  -- items below the chosen item stay right of the new rank
  have hright : ∀ k ∈ c.items_below.getD i [], rank_draw < r.getD (k - 1) 0 := by
    intro k hk
    have := (hB (List.ne_nil_of_mem hk)).2 k hk
    omega
  intro j hj
  rw [hlen] at hj
  rw [shift_step_getD (isPermutation_nodup hp) hi rank_draw j hj]
  constructor
  · intro k hk
    obtain ⟨hk1, hk2⟩ := (hwf j hj).1 k hk
    have hkn : k - 1 < r.length := by omega
    rw [shift_step_getD (isPermutation_nodup hp) hi rank_draw (k - 1) hkn]
    apply leap_shift_rank_lt ((hsat j hj).1 k hk)
    · intro hb
      have hji : j = i := getD_inj (isPermutation_nodup hp) hj hi hb
      rw [hji] at hk
      exact hleft k hk
    · intro ha
      have hki : k - 1 = i := getD_inj (isPermutation_nodup hp) hkn hi ha
      have hk' : (i + 1) ∈ c.items_above.getD j [] := by
        have : i + 1 = k := by omega
        rw [this]; exact hk
      have hmem := (hcons j hj i hi).1 hk'
      have := hright (j + 1) hmem
      rw [Nat.add_sub_cancel] at this
      exact this
  · intro k hk
    obtain ⟨hk1, hk2⟩ := (hwf j hj).2 k hk
    have hkn : k - 1 < r.length := by omega
    rw [shift_step_getD (isPermutation_nodup hp) hi rank_draw (k - 1) hkn]
    apply leap_shift_rank_lt ((hsat j hj).2 k hk)
    · intro hb
      have hki : k - 1 = i := getD_inj (isPermutation_nodup hp) hkn hi hb
      have hk' : (i + 1) ∈ c.items_below.getD j [] := by
        have : i + 1 = k := by omega
        rw [this]; exact hk
      have hmem := (hcons i hi j hj).2 hk'
      have := hleft (j + 1) hmem
      rw [Nat.add_sub_cancel] at this
      exact this
    · intro ha
      have hji : j = i := getD_inj (isPermutation_nodup hp) hj hi ha
      rw [hji] at hk
      exact hright k hk

theorem leap_and_shift_respects_constraints_witness :
    ∃ q, propose_pairwise_augmentation [3, 1, 4, 2]
        ⟨[2, 3], [[], [], [2], []], [[], [3], [], []]⟩ 1 3 = some q ∧
      SatisfiesConstraints q ⟨[2, 3], [[], [], [2], []], [[], [3], [], []]⟩ :=
  leap_and_shift_respects_constraints [3, 1, 4, 2]
    ⟨[2, 3], [[], [], [2], []], [[], [3], [], []]⟩ 1 3
    (by decide) (by decide) (by decide) (by decide) (by decide) (by decide) (by decide)
    (by decide)

/-- C4: at the ranking `(1, 2, 3)` with the single constraint "item 2 above item 3",
`Lswap = 2` and `u = 1`, `propose_swap` returns the proposal `(3, 2, 1)` with
`g_diff = -1`, whereas the net change `V(proposal) - V(ranking)` of the number of
violations around the two swapped items is `+1`: the loops for the second item compare
with `proposal(ind1)` and `ranking(ind1)`. -/
theorem propose_swap_g_diff_second_item :
    propose_swap [1, 2, 3] ⟨[2, 3], [[], [], [2]], [[], [3], []]⟩ 0 2 1
      = some ([3, 2, 1], -1) ∧
    swap_violations ⟨[2, 3], [[], [], [2]], [[], [3], []]⟩ [3, 2, 1] 0 2
      - swap_violations ⟨[2, 3], [[], [], [2]], [[], [3], []]⟩ [1, 2, 3] 0 2 = 1 := by
  constructor
  · decide
  · decide

/-- C5: at the ranking `(1, 2, 3)` with the single constraint "item 2 above item 3",
`Lswap = 2`, `u = 1` and `theta = 1/4`, the move `(1, 2, 3) → (3, 2, 1)` gets
`g_diff = -1` and so does the reverse move `(3, 2, 1) → (1, 2, 3)`; hence, over the reals
and for every distance function, `alpha` and `rho`, the log-ratio of the move is not
the negative of the log-ratio of the reverse move (the two differ from antisymmetry by
`2 * log 3`). -/
theorem swap_acceptance_ratio_not_antisymmetric
    (get_rank_distance : List Int → List Int → String → ℝ) (alpha : ℝ) (rho : List Int)
    (metric : String) :
    propose_swap [1, 2, 3] ⟨[2, 3], [[], [], [2]], [[], [3], []]⟩ 0 2 1
      = some ([3, 2, 1], -1) ∧
    propose_swap [3, 2, 1] ⟨[2, 3], [[], [], [2]], [[], [3], []]⟩ 0 2 1
      = some ([1, 2, 3], -1) ∧
    acceptance_ratio Real.log get_rank_distance alpha 3 (1 / 4) rho metric
        [1, 2, 3] [3, 2, 1] (-1)
      ≠ -acceptance_ratio Real.log get_rank_distance alpha 3 (1 / 4) rho metric
        [3, 2, 1] [1, 2, 3] (-1) := by
  refine ⟨by decide, by decide, ?_⟩
  have hc : ((1 : ℝ) / 4 > 0 ∧ (-1 : Int) ≠ 0) := ⟨by norm_num, by decide⟩
  unfold acceptance_ratio
  simp only [if_pos hc]
  have hlog : Real.log ((1 : ℝ) / 4 / (1 - 1 / 4)) < 0 :=
    Real.log_neg (by norm_num) (by norm_num)
  intro h
  push_cast at h
  linarith

section Augmentation

variable {K : Type} [LinearOrderedField K] (log : K → K)
  (get_rank_distance : List Int → List Int → String → K)
  (current_cluster_assignment : List Nat) (alpha : List K) (theta : K)
  (rho : List (List Int)) (metric : String) (constraints : List AssessorConstraints)
  (error_model : String) (Lswap : Int) (draws : Nat → Draws K)

theorem augment_pairwise_step_error (st : AugState) (i : Nat) (e : Failure)
    (hs : sample_proposal error_model (st.rankings.cols.getD i [])
      (constraints.getD i ⟨[], [], []⟩) Lswap (draws i).item_draw (draws i).rank_draw
      (draws i).swap_draw = Except.error e) :
    augment_pairwise_step log get_rank_distance current_cluster_assignment alpha theta
      rho metric constraints error_model Lswap draws st i = Except.error e := by
  unfold augment_pairwise_step
  simp only [hs]

theorem augment_pairwise_step_ok (st : AugState) (i : Nat) (p : List Int) (g : Int)
    (hs : sample_proposal error_model (st.rankings.cols.getD i [])
      (constraints.getD i ⟨[], [], []⟩) Lswap (draws i).item_draw (draws i).rank_draw
      (draws i).swap_draw = Except.ok (p, g)) :
    augment_pairwise_step log get_rank_distance current_cluster_assignment alpha theta
      rho metric constraints error_model Lswap draws st i =
      if acceptance_ratio log get_rank_distance
          (alpha.getD (current_cluster_assignment.getD i 0) 0) st.rankings.n_rows theta
          (rho.getD (current_cluster_assignment.getD i 0) []) metric
          (st.rankings.cols.getD i []) p g > log (draws i).unif then
        Except.ok
          { rankings := { n_rows := st.rankings.n_rows, cols := st.rankings.cols.set i p },
            aug_acceptance := st.aug_acceptance.set i (st.aug_acceptance.getD i 0 + 1) }
      else Except.ok st := by
  unfold augment_pairwise_step
  simp only [hs]

theorem augment_pairwise_step_frame (st st1 : AugState) (i : Nat)
    (h : augment_pairwise_step log get_rank_distance current_cluster_assignment alpha theta
      rho metric constraints error_model Lswap draws st i = Except.ok st1) :
    st1.rankings.n_rows = st.rankings.n_rows ∧
    st1.rankings.cols.length = st.rankings.cols.length ∧
    st1.aug_acceptance.length = st.aug_acceptance.length ∧
    ∀ j, j ≠ i → st1.rankings.cols.getD j [] = st.rankings.cols.getD j [] ∧
      st1.aug_acceptance.getD j 0 = st.aug_acceptance.getD j 0 := by
  cases hs : sample_proposal error_model (st.rankings.cols.getD i [])
      (constraints.getD i ⟨[], [], []⟩) Lswap (draws i).item_draw (draws i).rank_draw
      (draws i).swap_draw with
  | error e =>
    rw [augment_pairwise_step_error log get_rank_distance current_cluster_assignment alpha
      theta rho metric constraints error_model Lswap draws st i e hs] at h
    cases h
  | ok pg =>
    obtain ⟨p, g⟩ := pg
    rw [augment_pairwise_step_ok log get_rank_distance current_cluster_assignment alpha
      theta rho metric constraints error_model Lswap draws st i p g hs] at h
    split_ifs at h
    · cases h
      refine ⟨rfl, by simp, by simp, ?_⟩
      intro j hj
      constructor
      · simp only [List.getD_eq_getElem?_getD, List.getElem?_set]
        simp [Ne.symm hj]
      · exact getD_set_ne _ (Ne.symm hj)
    · cases h
      exact ⟨rfl, rfl, rfl, fun _ _ => ⟨rfl, rfl⟩⟩

theorem augment_pairwise_step_outcome (st st1 : AugState) (i : Nat)
    (hi : i < st.rankings.cols.length) (hi2 : i < st.aug_acceptance.length)
    (h : augment_pairwise_step log get_rank_distance current_cluster_assignment alpha theta
      rho metric constraints error_model Lswap draws st i = Except.ok st1) :
    StepOutcome log get_rank_distance current_cluster_assignment alpha theta
      rho metric constraints error_model Lswap draws st st1 i := by
  cases hs : sample_proposal error_model (st.rankings.cols.getD i [])
      (constraints.getD i ⟨[], [], []⟩) Lswap (draws i).item_draw (draws i).rank_draw
      (draws i).swap_draw with
  | error e =>
    rw [augment_pairwise_step_error log get_rank_distance current_cluster_assignment alpha
      theta rho metric constraints error_model Lswap draws st i e hs] at h
    cases h
  | ok pg =>
    obtain ⟨p, g⟩ := pg
    rw [augment_pairwise_step_ok log get_rank_distance current_cluster_assignment alpha
      theta rho metric constraints error_model Lswap draws st i p g hs] at h
    refine ⟨p, g, hs, ?_, ?_⟩
    · intro hacc
      rw [if_pos hacc] at h
      cases h
      constructor
      · simp only [List.getD_eq_getElem?_getD, List.getElem?_set]
        simp [hi]
      · exact getD_set_self _ hi2
    · intro hrej
      rw [if_neg hrej] at h
      cases h
      exact ⟨rfl, rfl⟩

theorem stepOutcome_transfer {old new old1 new1 : AugState} {i : Nat}
    (h : StepOutcome log get_rank_distance current_cluster_assignment alpha theta
      rho metric constraints error_model Lswap draws old new i)
    (h1 : old1.rankings.n_rows = old.rankings.n_rows)
    (h2 : old1.rankings.cols.getD i [] = old.rankings.cols.getD i [])
    (h3 : old1.aug_acceptance.getD i 0 = old.aug_acceptance.getD i 0)
    (h4 : new1.rankings.cols.getD i [] = new.rankings.cols.getD i [])
    (h5 : new1.aug_acceptance.getD i 0 = new.aug_acceptance.getD i 0) :
    StepOutcome log get_rank_distance current_cluster_assignment alpha theta
      rho metric constraints error_model Lswap draws old1 new1 i := by
  unfold StepOutcome at h ⊢
  rw [h1, h2, h3, h4, h5]
  exact h

theorem stepOutcome_keptOrAccepted {old new : AugState} {i : Nat}
    (h : StepOutcome log get_rank_distance current_cluster_assignment alpha theta
      rho metric constraints error_model Lswap draws old new i) :
    KeptOrAccepted constraints error_model Lswap (draws i).item_draw (draws i).rank_draw
      (draws i).swap_draw old new i := by
  obtain ⟨p, g, hs, hacc, hrej⟩ := h
  by_cases hc : log (draws i).unif < acceptance_ratio log get_rank_distance
        (alpha.getD (current_cluster_assignment.getD i 0) 0) old.rankings.n_rows theta
        (rho.getD (current_cluster_assignment.getD i 0) []) metric
        (old.rankings.cols.getD i []) p g
  · exact Or.inr ⟨p, g, hs, hacc hc⟩
  · exact Or.inl (hrej hc)

theorem keptOrAccepted_transfer {old new old1 new1 : AugState} {i : Nat}
    {item_draw rank_draw swap_draw : Int}
    (h : KeptOrAccepted constraints error_model Lswap item_draw rank_draw swap_draw
      old new i)
    (h2 : old1.rankings.cols.getD i [] = old.rankings.cols.getD i [])
    (h3 : old1.aug_acceptance.getD i 0 = old.aug_acceptance.getD i 0)
    (h4 : new1.rankings.cols.getD i [] = new.rankings.cols.getD i [])
    (h5 : new1.aug_acceptance.getD i 0 = new.aug_acceptance.getD i 0) :
    KeptOrAccepted constraints error_model Lswap item_draw rank_draw swap_draw
      old1 new1 i := by
  unfold KeptOrAccepted at h ⊢
  rw [h2, h3, h4, h5]
  exact h

theorem augment_pairwise_loop_spec (is : List Nat) :
    ∀ st : AugState, is.Nodup →
      (∀ i ∈ is, i < st.rankings.cols.length ∧ i < st.aug_acceptance.length) →
      ((augment_pairwise_loop log get_rank_distance current_cluster_assignment alpha theta
          rho metric constraints error_model Lswap draws is st).1.rankings.n_rows
          = st.rankings.n_rows ∧
        (augment_pairwise_loop log get_rank_distance current_cluster_assignment alpha theta
          rho metric constraints error_model Lswap draws is st).1.rankings.cols.length
          = st.rankings.cols.length ∧
        (augment_pairwise_loop log get_rank_distance current_cluster_assignment alpha theta
          rho metric constraints error_model Lswap draws is st).1.aug_acceptance.length
          = st.aug_acceptance.length) ∧
      (∀ j, j ∉ is →
        (augment_pairwise_loop log get_rank_distance current_cluster_assignment alpha theta
          rho metric constraints error_model Lswap draws is st).1.rankings.cols.getD j []
          = st.rankings.cols.getD j [] ∧
        (augment_pairwise_loop log get_rank_distance current_cluster_assignment alpha theta
          rho metric constraints error_model Lswap draws is st).1.aug_acceptance.getD j 0
          = st.aug_acceptance.getD j 0) ∧
      (∀ i ∈ is,
        KeptOrAccepted constraints error_model Lswap (draws i).item_draw
          (draws i).rank_draw (draws i).swap_draw st
          (augment_pairwise_loop log get_rank_distance current_cluster_assignment alpha
            theta rho metric constraints error_model Lswap draws is st).1 i) ∧
      ((augment_pairwise_loop log get_rank_distance current_cluster_assignment alpha theta
          rho metric constraints error_model Lswap draws is st).2 = none →
        ∀ i ∈ is,
          StepOutcome log get_rank_distance current_cluster_assignment alpha theta
            rho metric constraints error_model Lswap draws st
            (augment_pairwise_loop log get_rank_distance current_cluster_assignment alpha
              theta rho metric constraints error_model Lswap draws is st).1 i) := by
  induction is with
  | nil =>
    intro st _ _
    simp [augment_pairwise_loop]
  | cons i rest ih =>
    intro st hnd hlt
    have hi := hlt i (List.mem_cons_self i rest)
    have hirest : i ∉ rest := (List.nodup_cons.1 hnd).1
    cases hstep : augment_pairwise_step log get_rank_distance current_cluster_assignment
        alpha theta rho metric constraints error_model Lswap draws st i with
    | error e =>
      have hloop : augment_pairwise_loop log get_rank_distance current_cluster_assignment
          alpha theta rho metric constraints error_model Lswap draws (i :: rest) st
          = (st, some e) := by
        simp only [augment_pairwise_loop, hstep]
      rw [hloop]
      refine ⟨⟨rfl, rfl, rfl⟩, fun _ _ => ⟨rfl, rfl⟩, fun _ _ => Or.inl ⟨rfl, rfl⟩, ?_⟩
      intro h
      cases h
    | ok st1 =>
      have hloop : augment_pairwise_loop log get_rank_distance current_cluster_assignment
          alpha theta rho metric constraints error_model Lswap draws (i :: rest) st
          = augment_pairwise_loop log get_rank_distance current_cluster_assignment
          alpha theta rho metric constraints error_model Lswap draws rest st1 := by
        simp only [augment_pairwise_loop, hstep]
      rw [hloop]
      obtain ⟨f1, f2, f3, f4⟩ := augment_pairwise_step_frame log get_rank_distance
        current_cluster_assignment alpha theta rho metric constraints error_model Lswap
        draws st st1 i hstep
      have hout := augment_pairwise_step_outcome log get_rank_distance
        current_cluster_assignment alpha theta rho metric constraints error_model Lswap
        draws st st1 i hi.1 hi.2 hstep
      have hlt1 : ∀ k ∈ rest, k < st1.rankings.cols.length ∧ k < st1.aug_acceptance.length := by
        intro k hk
        rw [f2, f3]
        exact hlt k (List.mem_cons_of_mem i hk)
      obtain ⟨⟨a1, a2, a3⟩, hB, hC, hD⟩ := ih st1 (List.nodup_cons.1 hnd).2 hlt1
      refine ⟨⟨a1.trans f1, a2.trans f2, a3.trans f3⟩, ?_, ?_, ?_⟩
      · intro j hj
        have hji : j ≠ i := fun h => hj (h ▸ List.mem_cons_self _ _)
        have hjr : j ∉ rest := fun h => hj (List.mem_cons_of_mem i h)
        exact ⟨(hB j hjr).1.trans (f4 j hji).1, (hB j hjr).2.trans (f4 j hji).2⟩
      · intro k hk
        rcases List.mem_cons.1 hk with hki | hkr
        · subst hki
          exact keptOrAccepted_transfer constraints error_model Lswap
            (stepOutcome_keptOrAccepted log get_rank_distance current_cluster_assignment
              alpha theta rho metric constraints error_model Lswap draws hout)
            rfl rfl (hB k hirest).1 (hB k hirest).2
        · have hki : k ≠ i := fun h => hirest (h ▸ hkr)
          exact keptOrAccepted_transfer constraints error_model Lswap (hC k hkr)
            (f4 k hki).1.symm (f4 k hki).2.symm rfl rfl
      · intro hnone k hk
        rcases List.mem_cons.1 hk with hki | hkr
        · subst hki
          exact stepOutcome_transfer log get_rank_distance current_cluster_assignment
            alpha theta rho metric constraints error_model Lswap draws hout
            rfl rfl rfl (hB k hirest).1 (hB k hirest).2
        · have hki : k ≠ i := fun h => hirest (h ▸ hkr)
          exact stepOutcome_transfer log get_rank_distance current_cluster_assignment
            alpha theta rho metric constraints error_model Lswap draws (hD hnone k hkr)
            f1.symm (f4 k hki).1.symm (f4 k hki).2.symm rfl rfl

theorem augment_pairwise_loop_completes (is : List Nat) :
    ∀ st : AugState, is.Nodup →
      (∀ i ∈ is, ∃ p g,
        sample_proposal error_model (st.rankings.cols.getD i [])
          (constraints.getD i ⟨[], [], []⟩) Lswap (draws i).item_draw (draws i).rank_draw
          (draws i).swap_draw = Except.ok (p, g)) →
      (augment_pairwise_loop log get_rank_distance current_cluster_assignment alpha theta
        rho metric constraints error_model Lswap draws is st).2 = none := by
  induction is with
  | nil =>
    intro st _ _
    rfl
  | cons i rest ih =>
    intro st hnd hs
    have hirest : i ∉ rest := (List.nodup_cons.1 hnd).1
    obtain ⟨p, g, hpg⟩ := hs i (List.mem_cons_self i rest)
    have hstep := augment_pairwise_step_ok log get_rank_distance current_cluster_assignment
      alpha theta rho metric constraints error_model Lswap draws st i p g hpg
    obtain ⟨st1, hst1⟩ : ∃ st1, augment_pairwise_step log get_rank_distance
        current_cluster_assignment alpha theta rho metric constraints error_model Lswap
        draws st i = Except.ok st1 := by
      rw [hstep]
      split_ifs
      · exact ⟨_, rfl⟩
      · exact ⟨_, rfl⟩
    have hframe := (augment_pairwise_step_frame log get_rank_distance
      current_cluster_assignment alpha theta rho metric constraints error_model Lswap
      draws st st1 i hst1).2.2.2
    have hloop : augment_pairwise_loop log get_rank_distance current_cluster_assignment
        alpha theta rho metric constraints error_model Lswap draws (i :: rest) st
        = augment_pairwise_loop log get_rank_distance current_cluster_assignment
        alpha theta rho metric constraints error_model Lswap draws rest st1 := by
      simp only [augment_pairwise_loop, hst1]
    rw [hloop]
    apply ih st1 (List.nodup_cons.1 hnd).2
    intro k hk
    have hki : k ≠ i := fun h => hirest (h ▸ hk)
    rw [(hframe k hki).1]
    exact hs k (List.mem_cons_of_mem i hk)

theorem sample_proposal_invalid (ranking : List Int) (c : AssessorConstraints)
    (item_draw rank_draw swap_draw : Int)
    (h1 : error_model ≠ "none") (h2 : error_model ≠ "bernoulli") :
    sample_proposal error_model ranking c Lswap item_draw rank_draw swap_draw
      = Except.error (Failure.stop "error_model must be \x27none\x27 or \x27bernoulli\x27") := by
  unfold sample_proposal
  simp only [if_neg h1, if_neg h2]

theorem sample_proposal_valid (ranking : List Int) (c : AssessorConstraints)
    (item_draw rank_draw swap_draw : Int)
    (h : error_model = "none" ∨ error_model = "bernoulli") (msg : String) :
    sample_proposal error_model ranking c Lswap item_draw rank_draw swap_draw
      ≠ Except.error (Failure.stop msg) := by
  unfold sample_proposal
  rcases h with h | h
  · subst h
    simp only [if_true]
    split <;> simp
  · subst h
    have hne : ¬ ("bernoulli" = "none") := by decide
    simp only [if_neg hne, if_true]
    split <;> simp

theorem augment_pairwise_loop_valid
    (h : error_model = "none" ∨ error_model = "bernoulli") (msg : String) (is : List Nat) :
    ∀ st : AugState,
      (augment_pairwise_loop log get_rank_distance current_cluster_assignment alpha theta
        rho metric constraints error_model Lswap draws is st).2 ≠ some (Failure.stop msg) := by
  induction is with
  | nil =>
    intro st
    simp [augment_pairwise_loop]
  | cons i rest ih =>
    intro st
    cases hs : sample_proposal error_model (st.rankings.cols.getD i [])
        (constraints.getD i ⟨[], [], []⟩) Lswap (draws i).item_draw (draws i).rank_draw
        (draws i).swap_draw with
    | error e =>
      have hstep := augment_pairwise_step_error log get_rank_distance
        current_cluster_assignment alpha theta rho metric constraints error_model Lswap
        draws st i e hs
      simp only [augment_pairwise_loop, hstep]
      intro hcontra
      have he : e = Failure.stop msg := by simpa using hcontra
      rw [he] at hs
      exact sample_proposal_valid error_model Lswap _ _ _ _ _ h msg hs
    | ok pg =>
      obtain ⟨p, g⟩ := pg
      have hstep := augment_pairwise_step_ok log get_rank_distance
        current_cluster_assignment alpha theta rho metric constraints error_model Lswap
        draws st i p g hs
      simp only [augment_pairwise_loop, hstep]
      split_ifs
      · exact ih _
      · exact ih _

end Augmentation

/-- C6: acceptance in `augment_pairwise`.  With one counter per assessor: (a) one
iteration for assessor `i` draws a proposal from column `i`; if `log(unif) < ratio`
(strictly) column `i` becomes exactly the proposal and `aug_acceptance(i)` grows by exactly
`1`, otherwise both are unchanged; in both cases no other column or counter changes;
(b) the call keeps the shape of `rankings` and `aug_acceptance`; (c) after the call, for
every assessor, either column and counter are unchanged or the column is the proposal
drawn from its own old column and the counter has grown by exactly `1`; (d) if the call
ends without a failure, every assessor's column and counter are decided by
`log(unif) < ratio` computed from its own old column; (e) the call ends without a failure
whenever the proposal draw succeeds on every assessor's incoming column. -/
theorem augment_pairwise_accepts_iff {K : Type} [LinearOrderedField K] (log : K → K)
    (get_rank_distance : List Int → List Int → String → K)
    (rankings : Mat) (current_cluster_assignment : List Nat) (alpha : List K) (theta : K)
    (rho : List (List Int)) (metric : String) (constraints : List AssessorConstraints)
    (aug_acceptance : List Int) (error_model : String) (Lswap : Int)
    (draws : Nat → Draws K) (hacc : aug_acceptance.length = rankings.cols.length) :
    (∀ (st st1 : AugState) (i : Nat), i < st.rankings.cols.length →
      i < st.aug_acceptance.length →
      augment_pairwise_step log get_rank_distance current_cluster_assignment alpha theta
        rho metric constraints error_model Lswap draws st i = Except.ok st1 →
      StepOutcome log get_rank_distance current_cluster_assignment alpha theta
        rho metric constraints error_model Lswap draws st st1 i ∧
      ∀ j, j ≠ i → st1.rankings.cols.getD j [] = st.rankings.cols.getD j [] ∧
        st1.aug_acceptance.getD j 0 = st.aug_acceptance.getD j 0) ∧
    ((augment_pairwise log get_rank_distance rankings current_cluster_assignment alpha
        theta rho metric constraints aug_acceptance error_model Lswap draws).1.rankings.n_rows
        = rankings.n_rows ∧
      (augment_pairwise log get_rank_distance rankings current_cluster_assignment alpha
        theta rho metric constraints aug_acceptance error_model Lswap
        draws).1.rankings.cols.length = rankings.cols.length ∧
      (augment_pairwise log get_rank_distance rankings current_cluster_assignment alpha
        theta rho metric constraints aug_acceptance error_model Lswap
        draws).1.aug_acceptance.length = aug_acceptance.length) ∧
    (∀ i, i < rankings.cols.length →
      KeptOrAccepted constraints error_model Lswap (draws i).item_draw (draws i).rank_draw
        (draws i).swap_draw ⟨rankings, aug_acceptance⟩
        (augment_pairwise log get_rank_distance rankings current_cluster_assignment alpha
          theta rho metric constraints aug_acceptance error_model Lswap draws).1 i) ∧
    ((augment_pairwise log get_rank_distance rankings current_cluster_assignment alpha
        theta rho metric constraints aug_acceptance error_model Lswap draws).2 = none →
      ∀ i, i < rankings.cols.length →
        StepOutcome log get_rank_distance current_cluster_assignment alpha theta
          rho metric constraints error_model Lswap draws ⟨rankings, aug_acceptance⟩
          (augment_pairwise log get_rank_distance rankings current_cluster_assignment alpha
            theta rho metric constraints aug_acceptance error_model Lswap draws).1 i) ∧
    ((∀ i, i < rankings.cols.length → ∃ p g,
        sample_proposal error_model (rankings.cols.getD i [])
          (constraints.getD i ⟨[], [], []⟩) Lswap (draws i).item_draw (draws i).rank_draw
          (draws i).swap_draw = Except.ok (p, g)) →
      (augment_pairwise log get_rank_distance rankings current_cluster_assignment alpha
        theta rho metric constraints aug_acceptance error_model Lswap draws).2 = none) := by
  have hloop := augment_pairwise_loop_spec log get_rank_distance current_cluster_assignment
    alpha theta rho metric constraints error_model Lswap draws
    (List.range rankings.cols.length) ⟨rankings, aug_acceptance⟩ (List.nodup_range _)
    (by
      intro i hi
      have := List.mem_range.1 hi
      exact ⟨this, by rw [hacc]; exact this⟩)
  obtain ⟨hA, -, hC, hD⟩ := hloop
  refine ⟨?_, hA, ?_, ?_, ?_⟩
  · intro st st1 i hi hi2 hstep
    exact ⟨augment_pairwise_step_outcome log get_rank_distance current_cluster_assignment
        alpha theta rho metric constraints error_model Lswap draws st st1 i hi hi2 hstep,
      (augment_pairwise_step_frame log get_rank_distance current_cluster_assignment
        alpha theta rho metric constraints error_model Lswap draws st st1 i hstep).2.2.2⟩
  · intro i hi
    exact hC i (List.mem_range.2 hi)
  · intro hnone i hi
    exact hD hnone i (List.mem_range.2 hi)
  · intro hs
    exact augment_pairwise_loop_completes log get_rank_distance current_cluster_assignment
      alpha theta rho metric constraints error_model Lswap draws
      (List.range rankings.cols.length) ⟨rankings, aug_acceptance⟩ (List.nodup_range _)
      (fun i hi => hs i (List.mem_range.1 hi))

/-- C7, as stated, fails without assessors: with an empty `rankings` matrix the loop body
is never entered, so the unrecognised error model `"probit"` raises nothing. -/
theorem augment_pairwise_no_assessors_no_error :
    "probit" ≠ "none" ∧ "probit" ≠ "bernoulli" ∧
    augment_pairwise Real.log (fun _ _ _ => 0) ⟨3, []⟩ [] [1] (1 / 4) [[1, 2, 3]] "footrule"
      [] [] "probit" 1 (fun _ => ⟨0, 1, 1, 1 / 2⟩) = (⟨⟨3, []⟩, []⟩, none) :=
  ⟨by decide, by decide, rfl⟩

/-- C7 (amended): an unrecognised error-model name makes `augment_pairwise` fail as soon
as there is at least one assessor: the call ends with
`error_model must be 'none' or 'bernoulli'` and `rankings` and `aug_acceptance` still hold
their incoming values.  For `'none'` and `'bernoulli'` no `Rcpp::stop` failure is
raised. -/
theorem augment_pairwise_invalid_error_model {K : Type} [LinearOrderedField K] (log : K → K)
    (get_rank_distance : List Int → List Int → String → K)
    (rankings : Mat) (current_cluster_assignment : List Nat) (alpha : List K) (theta : K)
    (rho : List (List Int)) (metric : String) (constraints : List AssessorConstraints)
    (aug_acceptance : List Int) (error_model : String) (Lswap : Int)
    (draws : Nat → Draws K) :
    (error_model ≠ "none" → error_model ≠ "bernoulli" → 1 ≤ rankings.cols.length →
      augment_pairwise log get_rank_distance rankings current_cluster_assignment alpha
        theta rho metric constraints aug_acceptance error_model Lswap draws
        = (⟨rankings, aug_acceptance⟩,
          some (Failure.stop "error_model must be \x27none\x27 or \x27bernoulli\x27"))) ∧
    ((error_model = "none" ∨ error_model = "bernoulli") → ∀ msg : String,
      (augment_pairwise log get_rank_distance rankings current_cluster_assignment alpha
        theta rho metric constraints aug_acceptance error_model Lswap draws).2
        ≠ some (Failure.stop msg)) := by
  constructor
  · intro h1 h2 hn
    unfold augment_pairwise
    obtain ⟨n, hn2⟩ : ∃ n, rankings.cols.length = n + 1 := ⟨rankings.cols.length - 1, by omega⟩
    simp only [hn2, List.range_succ_eq_map, augment_pairwise_loop]
    rw [augment_pairwise_step_error log get_rank_distance current_cluster_assignment alpha
      theta rho metric constraints error_model Lswap draws _ 0 _
      (sample_proposal_invalid error_model Lswap _ _ _ _ _ h1 h2)]
  · intro h msg
    exact augment_pairwise_loop_valid log get_rank_distance current_cluster_assignment alpha
      theta rho metric constraints error_model Lswap draws h msg _ _

theorem augment_pairwise_accepts_iff_witness :
    (augment_pairwise Real.log (fun _ _ _ => 0) ⟨3, [[1, 2, 3]]⟩ [0] [1] (1 / 4)
      [[1, 2, 3]] "footrule" [⟨[2, 3], [[], [], [2]], [[], [3], []]⟩] [0] "bernoulli" 1
      (fun _ => ⟨0, 1, 1, 1 / 2⟩)).2 = none ∧
    KeptOrAccepted [⟨[2, 3], [[], [], [2]], [[], [3], []]⟩] "bernoulli" 1 0 1 1
      ⟨⟨3, [[1, 2, 3]]⟩, [0]⟩
      (augment_pairwise Real.log (fun _ _ _ => 0) ⟨3, [[1, 2, 3]]⟩ [0] [1] (1 / 4)
        [[1, 2, 3]] "footrule" [⟨[2, 3], [[], [], [2]], [[], [3], []]⟩] [0] "bernoulli" 1
        (fun _ => ⟨0, 1, 1, 1 / 2⟩)).1 0 := by
  have h := augment_pairwise_accepts_iff Real.log (fun _ _ _ => 0) ⟨3, [[1, 2, 3]]⟩ [0] [1]
    (1 / 4) [[1, 2, 3]] "footrule" [⟨[2, 3], [[], [], [2]], [[], [3], []]⟩] [0]
    "bernoulli" 1 (fun _ => ⟨0, 1, 1, 1 / 2⟩) rfl
  refine ⟨h.2.2.2.2 ?_, h.2.2.1 0 (by decide)⟩
  intro i hi
  have hi0 : i = 0 := by
    simp only [List.length_singleton] at hi
    omega
  subst hi0
  exact ⟨[2, 1, 3], 0, rfl⟩

theorem augment_pairwise_invalid_error_model_witness :
    augment_pairwise Real.log (fun _ _ _ => 0) ⟨3, [[1, 2, 3]]⟩ [0] [1] (1 / 4)
      [[1, 2, 3]] "footrule" [⟨[2, 3], [[], [], [2]], [[], [3], []]⟩] [0] "probit" 1
      (fun _ => ⟨0, 1, 1, 1 / 2⟩)
      = (⟨⟨3, [[1, 2, 3]]⟩, [0]⟩,
        some (Failure.stop "error_model must be \x27none\x27 or \x27bernoulli\x27")) :=
  (augment_pairwise_invalid_error_model Real.log (fun _ _ _ => 0) ⟨3, [[1, 2, 3]]⟩ [0] [1]
    (1 / 4) [[1, 2, 3]] "footrule" [⟨[2, 3], [[], [], [2]], [[], [3], []]⟩] [0] "probit" 1
    (fun _ => ⟨0, 1, 1, 1 / 2⟩)).1 (by decide) (by decide) (by decide)

/-! ## Counting in `update_shape_bernoulli` -/

theorem foldl_pair_add {α : Type} (a b : α → Int) (l : List α) (s : Int × Int) :
    l.foldl (fun s x => (s.1 + a x, s.2 + b x)) s
      = (s.1 + (l.map a).sum, s.2 + (l.map b).sum) := by
  induction l generalizing s with
  | nil => simp
  | cons x xs ih =>
    simp only [List.foldl_cons, List.map_cons, List.sum_cons]
    rw [ih]
    simp only [add_assoc]

theorem sum_b2i {α : Type} (p : α → Bool) (l : List α) :
    (l.map (fun k => b2i (p k))).sum = (l.countP p : Int) := by
  induction l with
  | nil => simp
  | cons x xs ih =>
    rw [List.map_cons, List.sum_cons, ih, List.countP_cons]
    cases p x <;> simp [b2i]
    omega

theorem sum_one_sub_b2i {α : Type} (p : α → Bool) (l : List α) :
    (l.map (fun k => 1 - b2i (p k))).sum = (l.countP (fun k => !p k) : Int) := by
  induction l with
  | nil => simp
  | cons x xs ih =>
    rw [List.map_cons, List.sum_cons, ih, List.countP_cons]
    cases p x <;> simp [b2i]
    omega

theorem shape_loops_eq (col : List Int) (c : AssessorConstraints) (j : Nat) (s : Int × Int) :
    shape_loop_below col j (c.items_below.getD j [])
        (shape_loop_above col j (c.items_above.getD j []) s)
      = (s.1 + (discordant_at col c j : Int), s.2 + (not_discordant_at col c j : Int)) := by
  unfold shape_loop_below shape_loop_above discordant_at not_discordant_at
  rw [foldl_pair_add, foldl_pair_add]
  simp only [sum_b2i, sum_one_sub_b2i]
  have h1 : List.countP (fun k => !decide (col.getD j 0 < col.getD (k - 1) 0))
        (c.items_above.getD j [])
      = List.countP (fun k => decide (col.getD (k - 1) 0 ≤ col.getD j 0))
        (c.items_above.getD j []) := by
    apply List.countP_congr
    intro k _
    simp
  have h2 : List.countP (fun k => !decide (col.getD j 0 > col.getD (k - 1) 0))
        (c.items_below.getD j [])
      = List.countP (fun k => decide (col.getD j 0 ≤ col.getD (k - 1) 0))
        (c.items_below.getD j []) := by
    apply List.countP_congr
    intro k _
    simp
  rw [h1, h2]
  push_cast
  simp only [gt_iff_lt, add_assoc]

theorem sum_map_natCast {α : Type} (f : α → Nat) (l : List α) :
    (l.map (fun x => (f x : Int))).sum = ((l.map f).sum : Nat) := by
  induction l with
  | nil => simp
  | cons x xs ih =>
    simp only [List.map_cons, List.sum_cons, ih]
    push_cast
    rfl

theorem shape_sums_eq (rankings : Mat) (constraints : List AssessorConstraints) :
    shape_sums rankings constraints
      = ((discordant_count rankings constraints : Int),
         (not_discordant_count rankings constraints : Int)) := by
  unfold shape_sums discordant_count not_discordant_count count_over
  simp only [shape_loops_eq, foldl_pair_add, sum_map_natCast, zero_add]

theorem not_discordant_eq_concordant (rankings : Mat) (constraints : List AssessorConstraints)
    (h : NoTies rankings constraints) :
    not_discordant_count rankings constraints = concordant_count rankings constraints := by
  unfold not_discordant_count concordant_count count_over
  congr 1
  apply List.map_congr_left
  intro i hi
  congr 1
  apply List.map_congr_left
  intro j hj
  obtain ⟨ha, hb⟩ := h i (List.mem_range.1 hi) j (List.mem_range.1 hj)
  unfold not_discordant_at concordant_at
  congr 1
  · apply List.countP_congr
    intro k hk
    have := ha k hk
    simp only [decide_eq_true_eq]
    omega
  · apply List.countP_congr
    intro k hk
    have := hb k hk
    simp only [decide_eq_true_eq]
    omega

theorem update_shape_bernoulli_eq {K : Type} [LinearOrderedField K]
    (shape_1 shape_2 kappa_1 kappa_2 : K) (rankings : Mat)
    (constraints : List AssessorConstraints) :
    update_shape_bernoulli shape_1 shape_2 kappa_1 kappa_2 rankings constraints
      = (kappa_1 + (discordant_count rankings constraints : K),
         kappa_2 + (not_discordant_count rankings constraints : K)) := by
  unfold update_shape_bernoulli
  rw [shape_sums_eq]
  simp

/-- C8, as stated, fails: with one assessor ranking `(1, 2)` and the constraint
"item 1 above item 2" recorded in both lists, both comparisons are concordant
(`C = 2`, `D = 0`), yet with `kappa_1 = kappa_2 = 1` the call sets `shape_1 = 1` and
`shape_2 = 3`, not `shape_1 = 1 + C = 3` and `shape_2 = 1 + D = 1`. -/
theorem update_shape_bernoulli_not_concordant_first :
    concordant_count ⟨2, [[1, 2]]⟩ [⟨[1, 2], [[], [1]], [[2], []]⟩] = 2 ∧
    discordant_count ⟨2, [[1, 2]]⟩ [⟨[1, 2], [[], [1]], [[2], []]⟩] = 0 ∧
    update_shape_bernoulli (0 : ℚ) 0 1 1 ⟨2, [[1, 2]]⟩ [⟨[1, 2], [[], [1]], [[2], []]⟩]
      = (1, 3) ∧
    update_shape_bernoulli (0 : ℚ) 0 1 1 ⟨2, [[1, 2]]⟩ [⟨[1, 2], [[], [1]], [[2], []]⟩]
      ≠ (1 + ((2 : Nat) : ℚ), 1 + ((0 : Nat) : ℚ)) := by
  have hC : concordant_count ⟨2, [[1, 2]]⟩ [⟨[1, 2], [[], [1]], [[2], []]⟩] = 2 := by decide
  have hD : discordant_count ⟨2, [[1, 2]]⟩ [⟨[1, 2], [[], [1]], [[2], []]⟩] = 0 := by decide
  have hN : not_discordant_count ⟨2, [[1, 2]]⟩ [⟨[1, 2], [[], [1]], [[2], []]⟩] = 2 := by
    decide
  refine ⟨hC, hD, ?_, ?_⟩
  · rw [update_shape_bernoulli_eq, hD, hN]
    norm_num
  · rw [update_shape_bernoulli_eq, hD, hN]
    norm_num

/-- C8 (amended): `update_shape_bernoulli` sets `shape_1 = kappa_1 + D` and
`shape_2 = kappa_2 + C'`, where, over all assessors `i`, all items `j`, all `k` in
`items_above[j]` and all `k` in `items_below[j]`, `D` is the number of discordant
comparisons (the item required to be above has the larger rank in assessor `i`'s current
ranking) and `C'` the number of comparisons that are not discordant; `C'` is the number `C`
of concordant comparisons (the item required to be above has the smaller rank) whenever no
compared pair has equal ranks.  The result does not depend on the incoming values of
`shape_1` and `shape_2`. -/
theorem update_shape_bernoulli_counts {K : Type} [LinearOrderedField K]
    (shape_1 shape_2 kappa_1 kappa_2 : K) (rankings : Mat)
    (constraints : List AssessorConstraints) :
    update_shape_bernoulli shape_1 shape_2 kappa_1 kappa_2 rankings constraints
      = (kappa_1 + (discordant_count rankings constraints : K),
         kappa_2 + (not_discordant_count rankings constraints : K)) ∧
    (NoTies rankings constraints →
      update_shape_bernoulli shape_1 shape_2 kappa_1 kappa_2 rankings constraints
        = (kappa_1 + (discordant_count rankings constraints : K),
           kappa_2 + (concordant_count rankings constraints : K))) ∧
    (∀ s1 s2 : K,
      update_shape_bernoulli s1 s2 kappa_1 kappa_2 rankings constraints
        = update_shape_bernoulli shape_1 shape_2 kappa_1 kappa_2 rankings constraints) := by
  refine ⟨update_shape_bernoulli_eq _ _ _ _ _ _, ?_, ?_⟩
  · intro h
    rw [update_shape_bernoulli_eq, not_discordant_eq_concordant rankings constraints h]
  · intro s1 s2
    rw [update_shape_bernoulli_eq, update_shape_bernoulli_eq]

theorem update_shape_bernoulli_counts_witness :
    update_shape_bernoulli (0 : ℚ) 0 1 1 ⟨3, [[1, 2, 3], [3, 1, 2]]⟩
        [⟨[2, 3], [[], [], [2]], [[], [3], []]⟩, ⟨[1, 2], [[], [1], []], [[2], [], []]⟩]
      = (1 + ((discordant_count ⟨3, [[1, 2, 3], [3, 1, 2]]⟩
            [⟨[2, 3], [[], [], [2]], [[], [3], []]⟩,
              ⟨[1, 2], [[], [1], []], [[2], [], []]⟩] : Nat) : ℚ),
         1 + ((concordant_count ⟨3, [[1, 2, 3], [3, 1, 2]]⟩
            [⟨[2, 3], [[], [], [2]], [[], [3], []]⟩,
              ⟨[1, 2], [[], [1], []], [[2], [], []]⟩] : Nat) : ℚ)) :=
  (update_shape_bernoulli_counts (0 : ℚ) 0 1 1 ⟨3, [[1, 2, 3], [3, 1, 2]]⟩
    [⟨[2, 3], [[], [], [2]], [[], [3], []]⟩,
      ⟨[1, 2], [[], [1], []], [[2], [], []]⟩]).2.1 (by decide)

/-! ## Importance sampling -/

theorem collect_some_spec {α β : Type} (f : α → Option β) (l : List α) :
    ∀ r, collect f l = some r → r.length = l.length ∧
      ∀ i (h1 : i < l.length) (h2 : i < r.length), f l[i] = some r[i] := by
  induction l with
  | nil =>
    intro r h
    simp only [collect, Option.some.injEq] at h
    subst h
    simp
  | cons x xs ih =>
    intro r h
    cases hx : f x with
    | none => simp [collect, hx] at h
    | some y =>
      cases hxs : collect f xs with
      | none => simp [collect, hx, hxs] at h
      | some ys =>
        simp only [collect, hx, hxs, Option.some.injEq] at h
        subst h
        obtain ⟨h1, h2⟩ := ih ys hxs
        refine ⟨by simp [h1], ?_⟩
        intro i hi1 hi2
        cases i with
        | zero => simpa using hx
        | succ i => simpa using h2 i (by simpa using hi1) (by simpa using hi2)

theorem collect_some_of_forall {α β : Type} (f : α → Option β) (l : List α)
    (h : ∀ x ∈ l, ∃ y, f x = some y) : ∃ r, collect f l = some r := by
  induction l with
  | nil => exact ⟨[], rfl⟩
  | cons x xs ih =>
    obtain ⟨y, hy⟩ := h x (List.mem_cons_self _ _)
    obtain ⟨ys, hys⟩ := ih (fun z hz => h z (List.mem_cons_of_mem _ hz))
    exact ⟨y :: ys, by simp only [collect, hy, hys]⟩

theorem sum_exp_pos (l : List ℝ) (h : l ≠ []) : 0 < (l.map Real.exp).sum := by
  induction l with
  | nil => exact absurd rfl h
  | cons x xs ih =>
    simp only [List.map_cons, List.sum_cons]
    by_cases hxs : xs = []
    · subst hxs; simpa using Real.exp_pos x
    · have := ih hxs
      have := Real.exp_pos x
      linarith

theorem sum_exp_sub (l : List ℝ) (m : ℝ) :
    (l.map (fun p => Real.exp (p - m))).sum = Real.exp (-m) * (l.map Real.exp).sum := by
  rw [← List.sum_map_mul_left]
  congr 1
  apply List.map_congr_left
  intro p _
  rw [← Real.exp_add]
  ring_nf

theorem max_of_spec {K : Type} [LinearOrderedField K] {l : List K} (h : l ≠ []) :
    ∃ m, max_of l = some m ∧ m ∈ l ∧ ∀ x ∈ l, x ≤ m := by
  cases l with
  | nil => exact absurd rfl h
  | cons x xs =>
    refine ⟨xs.foldl max x, rfl, ?_, ?_⟩
    · rw [List.mem_cons]
      exact foldl_max_mem xs x
    · intro y hy
      rcases List.mem_cons.1 hy with hy | hy
      · rw [hy]; exact (foldl_max_ge xs x).1
      · exact (foldl_max_ge xs x).2 y hy

/-- The stabilised expression equals the log of the arithmetic mean, whatever value is
subtracted. -/
theorem stabilised_eq_log_mean (partfun : List ℝ) (nmc : Nat) (maxval : ℝ)
    (h1 : 1 ≤ nmc) (hne : partfun ≠ []) :
    maxval + Real.log ((partfun.map (fun p => Real.exp (p - maxval))).sum)
        - Real.log (nmc : ℝ)
      = Real.log (1 / (nmc : ℝ) * (partfun.map Real.exp).sum) := by
  have hS := sum_exp_pos partfun hne
  have hn : (0 : ℝ) < nmc := by exact_mod_cast h1
  rw [sum_exp_sub, Real.log_mul (Real.exp_pos _).ne' hS.ne', Real.log_exp,
    Real.log_mul (by positivity) hS.ne', one_div, Real.log_inv]
  ring

theorem length_cumsum_from {K : Type} [LinearOrderedField K] (acc : K) (v : List K) :
    (cumsum_from acc v).length = v.length := by
  induction v generalizing acc with
  | nil => rfl
  | cons x xs ih => simp [cumsum_from, ih]

theorem cumsum_from_getD_last {K : Type} [LinearOrderedField K] (acc : K) (v : List K)
    (h : v ≠ []) : (cumsum_from acc v).getD (v.length - 1) 0 = acc + v.sum := by
  induction v generalizing acc with
  | nil => exact absurd rfl h
  | cons x xs ih =>
    by_cases hxs : xs = []
    · subst hxs
      simp [cumsum_from]
    · have hlen : (x :: xs).length - 1 = (xs.length - 1) + 1 := by
        have := List.length_pos.2 hxs
        simp only [List.length_cons]
        omega
      rw [hlen]
      simp only [cumsum_from, List.getD_cons_succ, List.sum_cons]
      rw [ih (acc + x) hxs, add_assoc]

theorem as_scalar_find_first_gt {K : Type} [LinearOrderedField K] {v : List K} {x : K}
    {i : Nat} (hi : i < v.length) (h : v.getD i 0 > x) :
    ∃ i0, as_scalar (find_first_gt v x) = some i0 ∧ i0 < v.length ∧ v.getD i0 0 > x := by
  unfold find_first_gt
  have hmem : i ∈ (List.range v.length).filter (fun i => decide (v.getD i 0 > x)) := by
    rw [List.mem_filter]
    exact ⟨List.mem_range.2 hi, by simpa using h⟩
  cases hF : (List.range v.length).filter (fun i => decide (v.getD i 0 > x)) with
  | nil => rw [hF] at hmem; simp at hmem
  | cons a t =>
    have ha : a ∈ (List.range v.length).filter (fun i => decide (v.getD i 0 > x)) := by
      rw [hF]; exact List.mem_cons_self _ _
    rw [List.mem_filter] at ha
    refine ⟨a, by simp [as_scalar], List.mem_range.1 ha.1, by simpa using ha.2⟩

theorem mem_find_nonzero {support : List Int} {i : Nat} :
    i ∈ find_nonzero support ↔ i < support.length ∧ support.getD i 0 ≠ 0 := by
  unfold find_nonzero
  rw [List.mem_filter, List.mem_range]
  simp

theorem nodup_find_nonzero (support : List Int) : (find_nonzero support).Nodup :=
  List.Nodup.filter _ (List.nodup_range _)

theorem length_find_nonzero_set {support : List Int} {idx : Nat}
    (h : idx ∈ find_nonzero support) :
    (find_nonzero (support.set idx 0)).length + 1 = (find_nonzero support).length := by
  rw [← List.toFinset_card_of_nodup (nodup_find_nonzero _),
    ← List.toFinset_card_of_nodup (nodup_find_nonzero _)]
  have hE : (find_nonzero (support.set idx 0)).toFinset
      = (find_nonzero support).toFinset.erase idx := by
    ext i
    rw [Finset.mem_erase, List.mem_toFinset, List.mem_toFinset, mem_find_nonzero,
      mem_find_nonzero, List.length_set]
    by_cases hi : i = idx
    · subst hi
      constructor
      · rintro ⟨h1, h2⟩
        rw [getD_set_self 0 h1] at h2
        exact absurd rfl h2
      · rintro ⟨h1, _⟩
        exact absurd rfl h1
    · rw [getD_set_ne 0 (Ne.symm hi)]
      constructor
      · rintro ⟨h1, h2⟩
        exact ⟨hi, h1, h2⟩
      · rintro ⟨_, h1, h2⟩
        exact ⟨h1, h2⟩
  rw [hE, Finset.card_erase_of_mem (List.mem_toFinset.2 h)]
  have : 0 < (find_nonzero support).toFinset.card :=
    Finset.card_pos.2 ⟨idx, List.mem_toFinset.2 h⟩
  omega

theorem find_nonzero_ranks (n : Nat) : find_nonzero (ranks n) = List.range n := by
  unfold find_nonzero
  rw [length_ranks]
  apply List.filter_eq_self.2
  intro i hi
  have hi2 : i < (ranks n).length := by rw [length_ranks]; exact List.mem_range.1 hi
  have := mem_ranks.1 (getD_mem hi2)
  simp only [decide_eq_true_eq]
  omega

theorem sum_exp_log_prob_vec (alpha : ℝ) (n_items : Nat) (metric : String) (rho : List Int)
    (inds : List Nat) (jj : Nat) (h : inds ≠ []) :
    ((log_prob_vec Real.exp Real.log alpha n_items metric rho inds jj).map Real.exp).sum
      = 1 := by
  unfold log_prob_vec
  simp only []
  generalize hraw : (List.map (fun x => -alpha / (n_items : ℝ)
      * |x - ((rho.getD jj 0 : Int) : ℝ)| ^ (if metric = "footrule" then 1 else 2))
      (List.map (fun (i : Nat) => (i : ℝ) + 1) inds)) = raw
  have hne : raw ≠ [] := by
    rw [← hraw]
    simpa using h
  have hS := sum_exp_pos raw hne
  rw [List.map_map]
  have : (List.map (Real.exp ∘ fun x => x - Real.log (List.map Real.exp raw).sum) raw)
      = raw.map (fun p => Real.exp (p - Real.log (List.map Real.exp raw).sum)) := rfl
  rw [this, sum_exp_sub, Real.exp_neg, Real.exp_log hS]
  exact inv_mul_cancel₀ hS.ne'

theorem length_log_prob_vec {K : Type} [LinearOrderedField K] (exp log : K → K) (alpha : K)
    (n_items : Nat) (metric : String) (rho : List Int) (inds : List Nat) (jj : Nat) :
    (log_prob_vec exp log alpha n_items metric rho inds jj).length = inds.length := by
  simp [log_prob_vec]

theorem sample_rank_step_some (alpha : ℝ) (n_items : Nat) (metric : String)
    (rho : List Int) (u : List ℝ) (jj : Nat) (st : List Int × List Int × ℝ)
    (hne : find_nonzero st.1 ≠ []) (hu0 : 0 < u.getD jj 0) (hu1 : u.getD jj 0 < 1) :
    ∃ idx ∈ find_nonzero st.1, ∃ lq : ℝ,
      sample_rank_step Real.exp Real.log alpha n_items metric rho u jj st
        = some (st.1.set idx 0, st.2.1.set jj ((idx : Int) + 1), lq) := by
  have hsum := sum_exp_log_prob_vec alpha n_items metric rho (find_nonzero st.1) jj hne
  have hlen := length_log_prob_vec Real.exp Real.log alpha n_items metric rho
    (find_nonzero st.1) jj
  generalize hlp : log_prob_vec Real.exp Real.log alpha n_items metric rho
    (find_nonzero st.1) jj = lp at hsum hlen
  have hpos : 0 < (find_nonzero st.1).length := List.length_pos.2 hne
  have hlpne : lp.map Real.exp ≠ [] := by
    intro h0
    have : (lp.map Real.exp).length = 0 := by rw [h0]; rfl
    rw [List.length_map] at this
    omega
  have hlast : (cumsum (lp.map Real.exp)).getD ((lp.map Real.exp).length - 1) 0 = 1 := by
    unfold cumsum
    rw [cumsum_from_getD_last 0 _ hlpne, hsum, zero_add]
  have hclen : ((cumsum (lp.map Real.exp)).map Real.log).length = lp.length := by
    unfold cumsum
    rw [List.length_map, length_cumsum_from, List.length_map]
  have hgt : ((cumsum (lp.map Real.exp)).map Real.log).getD (lp.length - 1) 0
      > Real.log (u.getD jj 0) := by
    have h0 : (0 : ℝ) = Real.log 0 := Real.log_zero.symm
    rw [List.length_map] at hlast
    nth_rewrite 1 [h0]
    rw [List.getD_map, hlast, Real.log_one]
    exact Real.log_neg hu0 hu1
  obtain ⟨i0, hi0, hi0lt, -⟩ := as_scalar_find_first_gt (by rw [hclen]; omega) hgt
  rw [hclen, hlen] at hi0lt
  refine ⟨(find_nonzero st.1).getD i0 0, ?_, st.2.2 + lp.getD i0 0, ?_⟩
  · rw [List.getD_eq_getElem _ 0 hi0lt]
    exact List.getElem_mem hi0lt
  · unfold sample_rank_step
    simp only [hlp, hi0]
    have : ((((find_nonzero st.1).getD i0 0 : Nat) : Int) + 1 - 1).toNat
        = (find_nonzero st.1).getD i0 0 := by omega
    rw [this]

theorem sample_ranks_loop_some (alpha : ℝ) (n_items : Nat) (metric : String)
    (rho : List Int) (u : List ℝ) (js : List Nat) :
    ∀ st : List Int × List Int × ℝ, js.length ≤ (find_nonzero st.1).length →
      (∀ jj ∈ js, 0 < u.getD jj 0 ∧ u.getD jj 0 < 1) →
      ∃ st1, sample_ranks_loop Real.exp Real.log alpha n_items metric rho u js st
        = some st1 := by
  induction js with
  | nil =>
    intro st _ _
    exact ⟨st, rfl⟩
  | cons jj rest ih =>
    intro st hlen hu
    have hne : find_nonzero st.1 ≠ [] := by
      intro h0
      rw [h0] at hlen
      simp at hlen
    obtain ⟨hu0, hu1⟩ := hu jj (List.mem_cons_self _ _)
    obtain ⟨idx, hidx, lq, hstep⟩ :=
      sample_rank_step_some alpha n_items metric rho u jj st hne hu0 hu1
    have hcount := length_find_nonzero_set hidx
    obtain ⟨st1, hst1⟩ := ih (st.1.set idx 0, st.2.1.set jj ((idx : Int) + 1), lq)
      (by
        simp only [List.length_cons] at hlen
        simp only []
        omega)
      (fun k hk => hu k (List.mem_cons_of_mem _ hk))
    exact ⟨st1, by simp only [sample_ranks_loop, hstep, hst1]⟩

theorem sample_partfun_some (get_rank_distance : List Int → List Int → String → ℝ)
    (alpha : ℝ) (n_items : Nat) (metric : String) (d : SampleDraws ℝ)
    (hd : AdmissibleDraws n_items d) :
    ∃ v, sample_partfun Real.exp Real.log get_rank_distance alpha n_items metric d
      = some v := by
  obtain ⟨hlen, hu, hperm⟩ := hd
  have hloop := sample_ranks_loop_some alpha n_items metric (ranks n_items) d.u
    ((List.range n_items).map (fun j => d.myind.getD j 0))
    (ranks n_items, List.replicate n_items 0, 0)
    (by simp [find_nonzero_ranks])
    (by
      intro jj hjj
      obtain ⟨j, hj, rfl⟩ := List.mem_map.1 hjj
      have hj2 : j < d.myind.length := by
        rw [List.Perm.length_eq hperm, List.length_range]
        exact List.mem_range.1 hj
      have hmem : d.myind.getD j 0 ∈ d.myind := by
        rw [List.getD_eq_getElem _ 0 hj2]
        exact List.getElem_mem hj2
      have hlt : d.myind.getD j 0 < d.u.length := by
        rw [hlen]
        exact List.mem_range.1 ((List.Perm.mem_iff hperm).1 hmem)
      apply hu
      rw [List.getD_eq_getElem _ 0 hlt]
      exact List.getElem_mem hlt)
  obtain ⟨st1, hst1⟩ := hloop
  refine ⟨-alpha / (n_items : ℝ) * get_rank_distance st1.2.1 (ranks n_items) metric
    - st1.2.2, ?_⟩
  simp only [sample_partfun, hst1]

theorem log_mean_exp_spec (partfun : List ℝ) (nmc : Nat) (h1 : 1 ≤ nmc)
    (hlen : partfun.length = nmc) :
    ∃ maxval, max_of partfun = some maxval ∧ maxval ∈ partfun ∧
      (∀ p ∈ partfun, p ≤ maxval) ∧
      log_mean_exp Real.exp Real.log partfun nmc
        = some (maxval + Real.log ((partfun.map (fun p => Real.exp (p - maxval))).sum)
            - Real.log (nmc : ℝ)) ∧
      maxval + Real.log ((partfun.map (fun p => Real.exp (p - maxval))).sum)
          - Real.log (nmc : ℝ)
        = Real.log (1 / (nmc : ℝ) * (partfun.map Real.exp).sum) := by
  have hne : partfun ≠ [] := by
    intro h0
    rw [h0] at hlen
    simp at hlen
    omega
  obtain ⟨m, hm, hmem, hle⟩ := max_of_spec hne
  refine ⟨m, hm, hmem, hle, ?_, stabilised_eq_log_mean partfun nmc m h1 hne⟩
  simp only [log_mean_exp, hm]

/-- C9: `compute_importance_sampling_estimate` returns, for each alpha, the log of the
arithmetic mean of the importance weights.  Over the reals, for `nmc ≥ 1`: (a) for every
vector `partfun` of `nmc` per-sample values the stabilised expression
`maxval + log(sum_i exp(partfun_i - maxval)) - log(nmc)` with `maxval = max(partfun)`
equals `log((1/nmc) * sum_i exp(partfun_i))`; (b) for admissible draws (uniforms strictly
between `0` and `1`, item orders that are permutations) the function returns a vector
with one entry per entry of `alpha_vector`, and its `t`-th entry is the stabilised
expression, hence the log of the mean of `exp(partfun_i)`, of the vector `partfun` sampled
for `alpha_vector(t)`. -/
theorem importance_sampling_estimate_is_log_mean
    (get_rank_distance : List Int → List Int → String → ℝ) (alpha_vector : List ℝ)
    (n_items : Nat) (metric : String) (nmc : Nat) (draws : Nat → Nat → SampleDraws ℝ)
    (hnmc : 1 ≤ nmc)
    (hd : ∀ t i, t < alpha_vector.length → i < nmc → AdmissibleDraws n_items (draws t i)) :
    (∀ partfun : List ℝ, partfun.length = nmc →
      ∃ maxval, max_of partfun = some maxval ∧ maxval ∈ partfun ∧
        (∀ p ∈ partfun, p ≤ maxval) ∧
        log_mean_exp Real.exp Real.log partfun nmc
          = some (maxval + Real.log ((partfun.map (fun p => Real.exp (p - maxval))).sum)
              - Real.log (nmc : ℝ)) ∧
        maxval + Real.log ((partfun.map (fun p => Real.exp (p - maxval))).sum)
            - Real.log (nmc : ℝ)
          = Real.log (1 / (nmc : ℝ) * (partfun.map Real.exp).sum)) ∧
    ∃ logZ,
      compute_importance_sampling_estimate Real.exp Real.log get_rank_distance alpha_vector
        n_items metric nmc draws = some logZ ∧
      logZ.length = alpha_vector.length ∧
      ∀ t, t < alpha_vector.length →
        ∃ partfun,
          partfun_vec Real.exp Real.log get_rank_distance (alpha_vector.getD t 0) n_items
            metric nmc (draws t) = some partfun ∧
          partfun.length = nmc ∧
          log_mean_exp Real.exp Real.log partfun nmc = some (logZ.getD t 0) ∧
          logZ.getD t 0 = Real.log (1 / (nmc : ℝ) * (partfun.map Real.exp).sum) := by
  refine ⟨fun partfun hlen => log_mean_exp_spec partfun nmc hnmc hlen, ?_⟩
  -- every vector `partfun` is produced
  have hpart : ∀ t, t < alpha_vector.length → ∃ partfun,
      partfun_vec Real.exp Real.log get_rank_distance (alpha_vector.getD t 0) n_items
        metric nmc (draws t) = some partfun ∧ partfun.length = nmc := by
    intro t ht
    obtain ⟨pf, hpf⟩ := collect_some_of_forall
      (fun i => sample_partfun Real.exp Real.log get_rank_distance (alpha_vector.getD t 0)
        n_items metric (draws t i)) (List.range nmc)
      (fun i hi => sample_partfun_some get_rank_distance _ n_items metric (draws t i)
        (hd t i ht (List.mem_range.1 hi)))
    refine ⟨pf, hpf, ?_⟩
    rw [(collect_some_spec _ _ pf hpf).1, List.length_range]
  have hentry : ∀ t ∈ List.range alpha_vector.length, ∃ y,
      logZ_entry Real.exp Real.log get_rank_distance (alpha_vector.getD t 0) n_items metric
        nmc (draws t) = some y := by
    intro t ht
    obtain ⟨pf, hpf, hlen⟩ := hpart t (List.mem_range.1 ht)
    obtain ⟨m, -, -, -, hlm, -⟩ := log_mean_exp_spec pf nmc hnmc hlen
    refine ⟨m + Real.log ((pf.map (fun p => Real.exp (p - m))).sum) - Real.log (nmc : ℝ), ?_⟩
    simp only [logZ_entry, hpf, hlm]
  obtain ⟨logZ, hZ0⟩ := collect_some_of_forall _ _ hentry
  have hZ : compute_importance_sampling_estimate Real.exp Real.log get_rank_distance
      alpha_vector n_items metric nmc draws = some logZ := hZ0
  obtain ⟨hZlen, hZget⟩ := collect_some_spec _ _ logZ hZ0
  rw [List.length_range] at hZlen
  refine ⟨logZ, hZ, hZlen, ?_⟩
  intro t ht
  obtain ⟨pf, hpf, hlen⟩ := hpart t ht
  obtain ⟨m, -, -, -, hlm, heq⟩ := log_mean_exp_spec pf nmc hnmc hlen
  have hget := hZget t (by rw [List.length_range]; exact ht) (by rw [hZlen]; exact ht)
  rw [List.getElem_range] at hget
  simp only [logZ_entry, hpf, hlm, Option.some.injEq] at hget
  have hgetD : logZ.getD t 0 = logZ[t] := List.getD_eq_getElem logZ 0 (by rw [hZlen]; exact ht)
  refine ⟨pf, hpf, hlen, ?_, ?_⟩
  · rw [hlm, hgetD, hget]
  · rw [hgetD, ← hget, heq]

theorem importance_sampling_estimate_is_log_mean_witness :
    ∃ logZ,
      compute_importance_sampling_estimate Real.exp Real.log (fun _ _ _ => 0) [1, 2] 2
        "footrule" 2 (fun _ _ => ⟨[1 / 2, 1 / 3], [1, 0]⟩) = some logZ ∧
      logZ.length = 2 := by
  obtain ⟨-, logZ, h1, h2, -⟩ := importance_sampling_estimate_is_log_mean
    (fun _ _ _ => 0) [1, 2] 2 "footrule" 2 (fun _ _ => ⟨[1 / 2, 1 / 3], [1, 0]⟩)
    (by decide)
    (by
      intro t i _ _
      refine ⟨rfl, ?_, (by decide : List.Perm [1, 0] (List.range 2))⟩
      intro x hx
      simp only [List.mem_cons, List.mem_singleton, List.not_mem_nil, or_false] at hx
      rcases hx with hx | hx <;> rw [hx] <;> norm_num)
  exact ⟨logZ, h1, h2⟩

/-- C12: the leap interval is never empty when the current ranking is consistent with the
chosen item's constraints.  For a permutation ranking and an item (index `i`, item number
`i + 1`) whose `items_above` all have a smaller current rank and whose `items_below` all
have a larger current rank, the limits computed by `find_pairwise_limits` from `0` and
`n_items + 1` satisfy `0 ≤ left_limit < ranking(item) < right_limit ≤ n_items + 1`; hence
the sampling range `[left_limit + 1, right_limit - 1]` lies within `1..n_items`, contains
the item's current rank, and the leap of `propose_pairwise_augmentation` accepts that rank
as a draw. -/
theorem leap_interval_nonempty (r : List Int) (c : AssessorConstraints) (i : Nat)
    (hp : IsPermutation r) (hi : i < r.length)
    (habove : ∀ k ∈ c.items_above.getD i [], r.getD (k - 1) 0 < r.getD i 0)
    (hbelow : ∀ k ∈ c.items_below.getD i [], r.getD i 0 < r.getD (k - 1) 0) :
    0 ≤ (find_pairwise_limits 0 ((r.length : Int) + 1) (i + 1) c r).1 ∧
    (find_pairwise_limits 0 ((r.length : Int) + 1) (i + 1) c r).1 < r.getD i 0 ∧
    r.getD i 0 < (find_pairwise_limits 0 ((r.length : Int) + 1) (i + 1) c r).2 ∧
    (find_pairwise_limits 0 ((r.length : Int) + 1) (i + 1) c r).2 ≤ (r.length : Int) + 1 ∧
    1 ≤ (find_pairwise_limits 0 ((r.length : Int) + 1) (i + 1) c r).1 + 1 ∧
    (find_pairwise_limits 0 ((r.length : Int) + 1) (i + 1) c r).1 + 1 ≤ r.getD i 0 ∧
    r.getD i 0 ≤ (find_pairwise_limits 0 ((r.length : Int) + 1) (i + 1) c r).2 - 1 ∧
    (find_pairwise_limits 0 ((r.length : Int) + 1) (i + 1) c r).2 - 1 ≤ (r.length : Int) ∧
    leap_step r c (i : Int) (r.getD i 0) =
      some (i, (find_pairwise_limits 0 ((r.length : Int) + 1) (i + 1) c r).1,
        (find_pairwise_limits 0 ((r.length : Int) + 1) (i + 1) c r).2, r.getD i 0) := by
  have hb := find_pairwise_limits_bounds hp (i + 1) c
  have hmm := find_pairwise_limits_max_min 0 ((r.length : Int) + 1) (i + 1) c r
  rw [Nat.add_sub_cancel] at hmm
  have hcur := (isPermutation_mem_iff hp).1 (getD_mem hi)
  have hleft : (find_pairwise_limits 0 ((r.length : Int) + 1) (i + 1) c r).1 < r.getD i 0 := by
    by_cases hne : c.items_above.getD i [] = []
    · rw [find_pairwise_limits_fst, Nat.add_sub_cancel, hne]
      simp only [List.length_nil, gt_iff_lt, lt_self_iff_false, if_false]
      omega
    · obtain ⟨k, hk, hk2⟩ := (hmm.1 hne).1
      rw [hk2]
      exact habove k hk
  have hright : r.getD i 0 < (find_pairwise_limits 0 ((r.length : Int) + 1) (i + 1) c r).2 := by
    by_cases hne : c.items_below.getD i [] = []
    · rw [find_pairwise_limits_snd, Nat.add_sub_cancel, hne]
      simp only [List.length_nil, gt_iff_lt, lt_self_iff_false, if_false]
      omega
    · obtain ⟨k, hk, hk2⟩ := (hmm.2 hne).1
      rw [hk2]
      exact hbelow k hk
  refine ⟨hb.1, hleft, hright, hb.2, by omega, by omega, by omega, by omega, ?_⟩
  have hstep := leap_step_eq r c (i : Int) (r.getD i 0) (by omega) (by omega)
    (by rw [Int.toNat_ofNat]; omega) (by rw [Int.toNat_ofNat]; omega)
  rw [Int.toNat_ofNat] at hstep
  exact hstep

theorem leap_interval_nonempty_witness :
    (find_pairwise_limits 0 ((([3, 1, 4, 2] : List Int).length : Int) + 1) (2 + 1)
      ⟨[2, 3], [[], [], [2], []], [[], [3], [], []]⟩ [3, 1, 4, 2]).1
      < ([3, 1, 4, 2] : List Int).getD 2 0 :=
  (leap_interval_nonempty [3, 1, 4, 2] ⟨[2, 3], [[], [], [2], []], [[], [3], [], []]⟩ 2
    (by decide) (by decide) (by decide) (by decide)).2.1

/-! ## The total of the two counts -/

theorem discordant_add_not_discordant (col : List Int) (c : AssessorConstraints) (j : Nat) :
    discordant_at col c j + not_discordant_at col c j = entries_at col c j := by
  unfold discordant_at not_discordant_at entries_at
  rw [List.length_eq_countP_add_countP
      (fun k => decide (col.getD (k - 1) 0 > col.getD j 0)) (c.items_above.getD j []),
    List.length_eq_countP_add_countP
      (fun k => decide (col.getD j 0 > col.getD (k - 1) 0)) (c.items_below.getD j [])]
  have h1 : List.countP
        (fun a => decide ¬(decide (col.getD (a - 1) 0 > col.getD j 0)) = true)
        (c.items_above.getD j [])
      = List.countP (fun k => decide (col.getD (k - 1) 0 ≤ col.getD j 0))
        (c.items_above.getD j []) := by
    apply List.countP_congr
    intro k _
    simp
  have h2 : List.countP
        (fun a => decide ¬(decide (col.getD j 0 > col.getD (a - 1) 0)) = true)
        (c.items_below.getD j [])
      = List.countP (fun k => decide (col.getD j 0 ≤ col.getD (k - 1) 0))
        (c.items_below.getD j []) := by
    apply List.countP_congr
    intro k _
    simp
  rw [h1, h2]
  omega

theorem discordant_count_add (rankings : Mat) (constraints : List AssessorConstraints) :
    discordant_count rankings constraints + not_discordant_count rankings constraints
      = compared_count rankings constraints := by
  unfold discordant_count not_discordant_count compared_count count_over
  rw [← List.sum_map_add]
  congr 1
  apply List.map_congr_left
  intro i _
  rw [← List.sum_map_add]
  congr 1
  apply List.map_congr_left
  intro j _
  exact discordant_add_not_discordant _ _ j

theorem sum_range_getD_length (l : List (List Nat)) :
    ((List.range l.length).map (fun j => (l.getD j []).length)).sum
      = (l.map List.length).sum := by
  congr 1
  apply List.ext_getElem (by simp)
  intro n h1 h2
  simp only [List.length_map, List.length_range] at h1
  simp [List.getD_eq_getElem?_getD, h1]

theorem compared_count_eq_total (rankings : Mat) (constraints : List AssessorConstraints)
    (h : ShapedFor rankings constraints) :
    compared_count rankings constraints = total_entries constraints := by
  obtain ⟨hlen, hrows⟩ := h
  unfold compared_count count_over total_entries entries_at
  rw [← hlen]
  congr 1
  apply List.ext_getElem (by simp)
  intro i h1 h2
  simp only [List.length_map, List.length_range] at h1
  have hmem : constraints[i] ∈ constraints := List.getElem_mem h1
  obtain ⟨ha, hb⟩ := hrows _ hmem
  simp only [List.getElem_map, List.getElem_range, List.getD_eq_getElem _ _ h1]
  rw [List.sum_map_add, ← ha, sum_range_getD_length, ha, ← hb, sum_range_getD_length]

/-- C14: the total of the two counts in `update_shape_bernoulli` does not depend on the
rankings.  Every comparison that the loops visit is counted in exactly one of `sum_1` and
`sum_2` (both are non-negative and add up to the number of visited comparisons), so after
the call `shape_1 + shape_2 = kappa_1 + kappa_2 + N`, `shape_1 ≥ kappa_1` and
`shape_2 ≥ kappa_2`, where, for a constraint list with one entry per assessor and one
above/below list per item, `N` is the total number of entries in all `items_above` and
`items_below` lists of all assessors. -/
theorem update_shape_bernoulli_total {K : Type} [LinearOrderedField K]
    (shape_1 shape_2 kappa_1 kappa_2 : K) (rankings : Mat)
    (constraints : List AssessorConstraints) :
    ((shape_sums rankings constraints).1 + (shape_sums rankings constraints).2
        = (compared_count rankings constraints : Int) ∧
      0 ≤ (shape_sums rankings constraints).1 ∧ 0 ≤ (shape_sums rankings constraints).2) ∧
    (update_shape_bernoulli shape_1 shape_2 kappa_1 kappa_2 rankings constraints).1
        + (update_shape_bernoulli shape_1 shape_2 kappa_1 kappa_2 rankings constraints).2
      = kappa_1 + kappa_2 + (compared_count rankings constraints : K) ∧
    kappa_1 ≤ (update_shape_bernoulli shape_1 shape_2 kappa_1 kappa_2 rankings constraints).1 ∧
    kappa_2 ≤ (update_shape_bernoulli shape_1 shape_2 kappa_1 kappa_2 rankings constraints).2 ∧
    (ShapedFor rankings constraints →
      compared_count rankings constraints = total_entries constraints ∧
      (update_shape_bernoulli shape_1 shape_2 kappa_1 kappa_2 rankings constraints).1
          + (update_shape_bernoulli shape_1 shape_2 kappa_1 kappa_2 rankings constraints).2
        = kappa_1 + kappa_2 + (total_entries constraints : K)) := by
  have hsum := discordant_count_add rankings constraints
  have hK : (discordant_count rankings constraints : K)
      + (not_discordant_count rankings constraints : K)
      = (compared_count rankings constraints : K) := by
    rw [← hsum]
    push_cast
    rfl
  have htot : (update_shape_bernoulli shape_1 shape_2 kappa_1 kappa_2 rankings constraints).1
        + (update_shape_bernoulli shape_1 shape_2 kappa_1 kappa_2 rankings constraints).2
      = kappa_1 + kappa_2 + (compared_count rankings constraints : K) := by
    rw [update_shape_bernoulli_eq, ← hK]
    ring
  refine ⟨⟨?_, ?_, ?_⟩, htot, ?_, ?_, ?_⟩
  · rw [shape_sums_eq, ← hsum]
    push_cast
    rfl
  · rw [shape_sums_eq]
    exact Int.natCast_nonneg _
  · rw [shape_sums_eq]
    exact Int.natCast_nonneg _
  · rw [update_shape_bernoulli_eq]
    exact le_add_of_nonneg_right (Nat.cast_nonneg _)
  · rw [update_shape_bernoulli_eq]
    exact le_add_of_nonneg_right (Nat.cast_nonneg _)
  · intro h
    have hN := compared_count_eq_total rankings constraints h
    refine ⟨hN, ?_⟩
    rw [htot, hN]

theorem update_shape_bernoulli_total_witness :
    compared_count ⟨3, [[1, 2, 3], [3, 1, 2]]⟩
        [⟨[2, 3], [[], [], [2]], [[], [3], []]⟩, ⟨[1, 2], [[], [1], []], [[2], [], []]⟩]
      = total_entries
        [⟨[2, 3], [[], [], [2]], [[], [3], []]⟩, ⟨[1, 2], [[], [1], []], [[2], [], []]⟩] ∧
    (update_shape_bernoulli (0 : ℚ) 0 1 1 ⟨3, [[1, 2, 3], [3, 1, 2]]⟩
        [⟨[2, 3], [[], [], [2]], [[], [3], []]⟩,
          ⟨[1, 2], [[], [1], []], [[2], [], []]⟩]).1
      + (update_shape_bernoulli (0 : ℚ) 0 1 1 ⟨3, [[1, 2, 3], [3, 1, 2]]⟩
        [⟨[2, 3], [[], [], [2]], [[], [3], []]⟩,
          ⟨[1, 2], [[], [1], []], [[2], [], []]⟩]).2
      = 1 + 1 + ((total_entries
        [⟨[2, 3], [[], [], [2]], [[], [3], []]⟩,
          ⟨[1, 2], [[], [1], []], [[2], [], []]⟩] : Nat) : ℚ) :=
  (update_shape_bernoulli_total (0 : ℚ) 0 1 1 ⟨3, [[1, 2, 3], [3, 1, 2]]⟩
    [⟨[2, 3], [[], [], [2]], [[], [3], []]⟩,
      ⟨[1, 2], [[], [1], []], [[2], [], []]⟩]).2.2.2.2 (by decide)

/-! ## The swap move undoes itself -/

theorem ext_getD {l1 l2 : List Int} (hlen : l1.length = l2.length)
    (h : ∀ k, k < l1.length → l1.getD k 0 = l2.getD k 0) : l1 = l2 := by
  apply List.ext_getElem hlen
  intro k h1 h2
  have := h k h1
  rw [List.getD_eq_getElem l1 0 h1, List.getD_eq_getElem l2 0 h2] at this
  exact this

theorem swap_isPermutation {r : List Int} (hp : IsPermutation r) {i1 i2 : Nat} {u L : Int}
    (hL : 1 ≤ L) (hu1 : 1 ≤ u) (hu2 : u ≤ (r.length : Int) - L)
    (hi1 : i1 < r.length) (hi2 : i2 < r.length) (hne : i1 ≠ i2)
    (h1 : r.getD i1 0 = u) (h2 : r.getD i2 0 = u + L) :
    IsPermutation ((r.set i1 (u + L)).set i2 u) := by
  have hlen : ((r.set i1 (u + L)).set i2 u).length = r.length := by
    rw [List.length_set, List.length_set]
  apply isPermutation_of_getD (swap_rank u (u + L)) hp hlen
  · intro k hk
    have := swap_getD (isPermutation_nodup hp) hi1 hi2 hne k hk
    rw [h1, h2] at this
    exact this
  · intro x hx1 hx2
    unfold swap_rank
    split_ifs <;> omega
  · intro x y _ _ _ _ h
    exact swap_rank_inj h

/-- C15: `propose_swap` is its own inverse on rankings for a fixed draw.  For a
permutation ranking, `1 ≤ Lswap ≤ n_items - 1`, a draw `u` in `[1, n_items - Lswap]` and
every constraint set, `propose_swap` returns a proposal, and `propose_swap` applied to
that proposal with the same `u` and `Lswap` (whatever the incoming `g_diff`) returns the
original ranking. -/
theorem propose_swap_involutive (r : List Int) (c : AssessorConstraints)
    (g_diff g_diff1 Lswap u : Int) (hp : IsPermutation r) (hL1 : 1 ≤ Lswap)
    (_hL2 : Lswap ≤ (r.length : Int) - 1) (hu1 : 1 ≤ u)
    (hu2 : u ≤ (r.length : Int) - Lswap) :
    ∃ q g, propose_swap r c g_diff Lswap u = some (q, g) ∧
      ∃ g1, propose_swap q c g_diff1 Lswap u = some (r, g1) := by
  obtain ⟨i1, i2, hi1, hi2, hne, h1, h2, heq⟩ := propose_swap_eq c g_diff Lswap u hp hL1 hu1 hu2
  refine ⟨_, _, heq, ?_⟩
  have hlen : ((r.set i1 (u + Lswap)).set i2 u).length = r.length := by
    rw [List.length_set, List.length_set]
  have hq := swap_isPermutation hp hL1 hu1 hu2 hi1 hi2 hne h1 h2
  have hq1 : ((r.set i1 (u + Lswap)).set i2 u).getD i1 0 = u + Lswap := by
    rw [getD_set_ne _ (Ne.symm hne), getD_set_self _ hi1]
  have hq2 : ((r.set i1 (u + Lswap)).set i2 u).getD i2 0 = u := by
    rw [getD_set_self _ (by rw [List.length_set]; exact hi2)]
  obtain ⟨j1, j2, hj1, hj2, -, k1, k2, heq2⟩ :=
    propose_swap_eq c g_diff1 Lswap u hq hL1 hu1 (by rw [hlen]; exact hu2)
  have e1 : j1 = i2 :=
    getD_inj (isPermutation_nodup hq) hj1 (by rw [hlen]; exact hi2) (by rw [k1, hq2])
  have e2 : j2 = i1 :=
    getD_inj (isPermutation_nodup hq) hj2 (by rw [hlen]; exact hi1) (by rw [k2, hq1])
  subst e1 e2
  have hback : (((r.set j2 (u + Lswap)).set j1 u).set j1 (u + Lswap)).set j2 u = r := by
    apply ext_getD (by simp only [List.length_set])
    intro k hk
    simp only [List.length_set] at hk
    by_cases hk2 : k = j2
    · subst hk2
      rw [getD_set_self _ (by simp only [List.length_set]; exact hk), h1]
    · rw [getD_set_ne _ (Ne.symm hk2)]
      by_cases hk1 : k = j1
      · subst hk1
        rw [getD_set_self _ (by simp only [List.length_set]; exact hk), h2]
      · rw [getD_set_ne _ (Ne.symm hk1), getD_set_ne _ (Ne.symm hk1),
          getD_set_ne _ (Ne.symm hk2)]
  rw [hback] at heq2
  exact ⟨_, heq2⟩

theorem propose_swap_involutive_witness :
    ∃ q g, propose_swap [3, 1, 4, 2] ⟨[2, 3], [[], [], [2], []], [[], [3], [], []]⟩ 0 2 1
        = some (q, g) ∧
      ∃ g1, propose_swap q ⟨[2, 3], [[], [], [2], []], [[], [3], [], []]⟩ 0 2 1
        = some ([3, 1, 4, 2], g1) :=
  propose_swap_involutive [3, 1, 4, 2] ⟨[2, 3], [[], [], [2], []], [[], [3], [], []]⟩ 0 0 2 1
    (by decide) (by decide) (by decide) (by decide) (by decide)

/-! ## The ranks drawn for one Monte Carlo sample -/

theorem as_scalar_eq_some {α : Type} {l : List α} {a : α} (h : as_scalar l = some a) :
    l = [a] := by
  cases l with
  | nil => simp [as_scalar] at h
  | cons x xs =>
    cases xs with
    | nil =>
      simp only [as_scalar, Option.some.injEq] at h
      rw [h]
    | cons y ys => simp [as_scalar] at h

theorem find_first_gt_some {K : Type} [LinearOrderedField K] {v : List K} {x : K} {i0 : Nat}
    (h : as_scalar (find_first_gt v x) = some i0) : i0 < v.length ∧ v.getD i0 0 > x := by
  have h1 := as_scalar_eq_some h
  unfold find_first_gt at h1
  have hmem : i0 ∈ ((List.range v.length).filter (fun i => decide (v.getD i 0 > x))).take 1 := by
    rw [h1]
    exact List.mem_singleton.2 rfl
  have hmem2 := List.mem_of_mem_take hmem
  rw [List.mem_filter] at hmem2
  exact ⟨List.mem_range.1 hmem2.1, by simpa using hmem2.2⟩

theorem length_log_cpd {K : Type} [LinearOrderedField K] (exp log : K → K) (lp : List K) :
    ((cumsum (lp.map exp)).map log).length = lp.length := by
  unfold cumsum
  rw [List.length_map, length_cumsum_from, List.length_map]

/-- A pass of the loop over `j` that returns has picked one of the free ranks. -/
theorem sample_rank_step_inv {K : Type} [LinearOrderedField K] (exp log : K → K) (alpha : K)
    (n_items : Nat) (metric : String) (rho : List Int) (u : List K) (jj : Nat)
    (st st1 : List Int × List Int × K)
    (h : sample_rank_step exp log alpha n_items metric rho u jj st = some st1) :
    ∃ i0, i0 < (find_nonzero st.1).length ∧
      (find_nonzero st.1).getD i0 0 ∈ find_nonzero st.1 ∧
      st1 = (st.1.set ((find_nonzero st.1).getD i0 0) 0,
        st.2.1.set jj ((((find_nonzero st.1).getD i0 0 : Nat) : Int) + 1),
        st.2.2 + (log_prob_vec exp log alpha n_items metric rho (find_nonzero st.1) jj).getD
          i0 0) := by
  unfold sample_rank_step at h
  simp only [] at h
  cases hfind : as_scalar (find_first_gt
      ((cumsum ((log_prob_vec exp log alpha n_items metric rho (find_nonzero st.1) jj).map
        exp)).map log) (log (u.getD jj 0))) with
  | none =>
    rw [hfind] at h
    simp at h
  | some i0 =>
    rw [hfind] at h
    simp only [Option.some.injEq] at h
    have hlt := (find_first_gt_some hfind).1
    rw [length_log_cpd, length_log_prob_vec] at hlt
    refine ⟨i0, hlt, ?_, ?_⟩
    · rw [List.getD_eq_getElem _ 0 hlt]
      exact List.getElem_mem hlt
    · have hidx : ((((find_nonzero st.1).getD i0 0 : Nat) : Int) + 1 - 1).toNat
          = (find_nonzero st.1).getD i0 0 := by omega
      rw [hidx] at h
      exact h.symm

/-- Invariant of the loop over `j`: the items already placed hold distinct ranks of
`1..n`, each marked used in `support`, and as many ranks are free as items remain. -/
theorem sample_ranks_loop_inv {K : Type} [LinearOrderedField K] (exp log : K → K) (alpha : K)
    (n_items : Nat) (metric : String) (rho : List Int) (u : List K) (n : Nat)
    (js : List Nat) :
    ∀ st st1 : List Int × List Int × K, js.Nodup → (∀ jj ∈ js, jj < n) →
      st.1.length = n → st.2.1.length = n →
      (∀ k, k < n → k ∉ js → 1 ≤ st.2.1.getD k 0 ∧ st.2.1.getD k 0 ≤ n ∧
        st.1.getD (st.2.1.getD k 0 - 1).toNat 0 = 0) →
      (∀ k k2, k < n → k2 < n → k ∉ js → k2 ∉ js →
        st.2.1.getD k 0 = st.2.1.getD k2 0 → k = k2) →
      (find_nonzero st.1).length = js.length →
      sample_ranks_loop exp log alpha n_items metric rho u js st = some st1 →
      st1.1.length = n ∧ st1.2.1.length = n ∧
      (∀ k, k < n → 1 ≤ st1.2.1.getD k 0 ∧ st1.2.1.getD k 0 ≤ n) ∧
      (∀ k k2, k < n → k2 < n → st1.2.1.getD k 0 = st1.2.1.getD k2 0 → k = k2) ∧
      find_nonzero st1.1 = [] := by
  induction js with
  | nil =>
    intro st st1 _ _ hl1 hl2 h3 h4 h5 hloop
    simp only [sample_ranks_loop, Option.some.injEq] at hloop
    subst hloop
    refine ⟨hl1, hl2, ?_, ?_, ?_⟩
    · intro k hk
      have := h3 k hk (List.not_mem_nil k)
      exact ⟨this.1, this.2.1⟩
    · intro k k2 hk hk2 he
      exact h4 k k2 hk hk2 (List.not_mem_nil k) (List.not_mem_nil k2) he
    · exact List.length_eq_zero.1 (by simpa using h5)
  | cons jj rest ih =>
    intro st st1 hnd hlt hl1 hl2 h3 h4 h5 hloop
    have hjj : jj < n := hlt jj (List.mem_cons_self _ _)
    have hjrest : jj ∉ rest := (List.nodup_cons.1 hnd).1
    cases hstep : sample_rank_step exp log alpha n_items metric rho u jj st with
    | none => simp [sample_ranks_loop, hstep] at hloop
    | some st2 =>
      simp only [sample_ranks_loop, hstep] at hloop
      obtain ⟨i0, -, hmem, hst2⟩ :=
        sample_rank_step_inv exp log alpha n_items metric rho u jj st st2 hstep
      have hcount := length_find_nonzero_set hmem
      obtain ⟨hidx, hnz⟩ := mem_find_nonzero.1 hmem
      generalize (find_nonzero st.1).getD i0 0 = idx at hmem hst2 hcount hidx hnz
      generalize st.2.2 + (log_prob_vec exp log alpha n_items metric rho (find_nonzero st.1)
        jj).getD i0 0 = lq at hst2
      subst hst2
      rw [hl1] at hidx
      apply ih _ st1 (List.nodup_cons.1 hnd).2 (fun k hk => hlt k (List.mem_cons_of_mem _ hk))
        (by simp only [List.length_set]; exact hl1) (by simp only [List.length_set]; exact hl2)
        ?_ ?_ ?_ hloop
      · intro k hk hkr
        simp only []
        by_cases hkj : k = jj
        · subst hkj
          rw [getD_set_self _ (by rw [hl2]; exact hk)]
          refine ⟨by omega, by omega, ?_⟩
          have : ((idx : Int) + 1 - 1).toNat = idx := by omega
          rw [this, getD_set_self _ (by rw [hl1]; exact hidx)]
        · rw [getD_set_ne _ (Ne.symm hkj)]
          have hknot : k ∉ jj :: rest := by
            intro hm
            rcases List.mem_cons.1 hm with hm | hm
            · exact hkj hm
            · exact hkr hm
          obtain ⟨a1, a2, a3⟩ := h3 k hk hknot
          refine ⟨a1, a2, ?_⟩
          by_cases hsame : idx = (st.2.1.getD k 0 - 1).toNat
          · rw [← hsame, getD_set_self _ (by rw [hl1]; exact hidx)]
          · rw [getD_set_ne _ hsame]
            exact a3
      · intro k k2 hk hk2 hkr hk2r he
        simp only [] at he
        have hnotIn : ∀ m, m < n → m ∉ rest → m ≠ jj → m ∉ jj :: rest := by
          intro m _ hmr hmj hm
          rcases List.mem_cons.1 hm with hm | hm
          · exact hmj hm
          · exact hmr hm
        have hfresh : ∀ m, m < n → m ∉ rest → m ≠ jj → st.2.1.getD m 0 ≠ (idx : Int) + 1 := by
          intro m hm hmr hmj heq
          have h0 := (h3 m hm (hnotIn m hm hmr hmj)).2.2
          rw [heq] at h0
          have : ((idx : Int) + 1 - 1).toNat = idx := by omega
          rw [this] at h0
          exact hnz h0
        by_cases hkj : k = jj
        · by_cases hk2j : k2 = jj
          · rw [hkj, hk2j]
          · exfalso
            rw [hkj, getD_set_self _ (by rw [hl2]; exact hjj),
              getD_set_ne _ (Ne.symm hk2j)] at he
            exact hfresh k2 hk2 hk2r hk2j he.symm
        · by_cases hk2j : k2 = jj
          · exfalso
            rw [hk2j, getD_set_self _ (by rw [hl2]; exact hjj),
              getD_set_ne _ (Ne.symm hkj)] at he
            exact hfresh k hk hkr hkj he
          · rw [getD_set_ne _ (Ne.symm hkj), getD_set_ne _ (Ne.symm hk2j)] at he
            exact h4 k k2 hk hk2 (hnotIn k hk hkr hkj) (hnotIn k2 hk2 hk2r hk2j) he
      · simp only [List.length_cons] at h5
        simp only []
        omega

theorem map_getD_range {α : Type} (l : List α) (d : α) :
    (List.range l.length).map (fun j => l.getD j d) = l := by
  apply List.ext_getElem (by simp)
  intro k h1 h2
  rw [List.getElem_map, List.getElem_range, List.getD_eq_getElem l d h2]

theorem isPermutation_of_injective {r : List Int}
    (hb : ∀ k, k < r.length → 1 ≤ r.getD k 0 ∧ r.getD k 0 ≤ r.length)
    (hinj : ∀ k k2, k < r.length → k2 < r.length → r.getD k 0 = r.getD k2 0 → k = k2) :
    IsPermutation r := by
  have hnd : r.Nodup := by
    rw [← map_getD_range r 0]
    apply List.Nodup.map_on _ (List.nodup_range _)
    intro x hx y hy hxy
    exact hinj x y (List.mem_range.1 hx) (List.mem_range.1 hy) hxy
  have hsub : r ⊆ ranks r.length := by
    intro x hx
    obtain ⟨k, hk, rfl⟩ := exists_index_of_mem hx
    exact mem_ranks.2 (hb k hk)
  exact List.Subperm.perm_of_length_le (List.subperm_of_subset hnd hsub)
    (by rw [length_ranks])

theorem getD_eq_zero_of_find_nonzero_nil {support : List Int}
    (h : find_nonzero support = []) (i : Nat) : support.getD i 0 = 0 := by
  by_cases hi : i < support.length
  · by_contra hne
    have : i ∈ find_nonzero support := mem_find_nonzero.2 ⟨hi, hne⟩
    rw [h] at this
    exact List.not_mem_nil _ this
  · exact List.getD_eq_default _ _ (by omega)

/-- For admissible draws the loop over `j` of one Monte Carlo sample returns; the vector
`ranks` it leaves is a permutation of `1..n_items` and `support` is all zero. -/
theorem sample_ranks_loop_result (alpha : ℝ) (n_items : Nat) (metric : String)
    (d : SampleDraws ℝ) (hd : AdmissibleDraws n_items d) :
    ∃ st : List Int × List Int × ℝ,
      sample_ranks_loop Real.exp Real.log alpha n_items metric (ranks n_items) d.u
        ((List.range n_items).map (fun j => d.myind.getD j 0))
        (ranks n_items, List.replicate n_items 0, 0) = some st ∧
      IsPermutation st.2.1 ∧ st.2.1.length = n_items ∧ st.1.length = n_items ∧
      (∀ i, st.1.getD i 0 = 0) ∧ find_nonzero st.1 = [] := by
  obtain ⟨hlen, hu, hperm⟩ := hd
  have hmlen : d.myind.length = n_items := by
    rw [List.Perm.length_eq hperm, List.length_range]
  have hjs : (List.range n_items).map (fun j => d.myind.getD j 0) = d.myind := by
    rw [← hmlen]
    exact map_getD_range d.myind 0
  rw [hjs]
  have hlt : ∀ jj ∈ d.myind, jj < n_items := fun jj hjj =>
    List.mem_range.1 ((List.Perm.mem_iff hperm).1 hjj)
  have hall : ∀ k, k < n_items → k ∈ d.myind := fun k hk =>
    (List.Perm.mem_iff hperm).2 (List.mem_range.2 hk)
  obtain ⟨st, hst⟩ := sample_ranks_loop_some alpha n_items metric (ranks n_items) d.u d.myind
    (ranks n_items, List.replicate n_items 0, 0)
    (by simp [find_nonzero_ranks, hmlen])
    (by
      intro jj hjj
      have hj : jj < d.u.length := by rw [hlen]; exact hlt jj hjj
      apply hu
      rw [List.getD_eq_getElem _ 0 hj]
      exact List.getElem_mem hj)
  obtain ⟨a1, a2, a3, a4, a5⟩ := sample_ranks_loop_inv Real.exp Real.log alpha n_items metric
    (ranks n_items) d.u n_items d.myind (ranks n_items, List.replicate n_items 0, 0) st
    ((List.Perm.nodup_iff hperm).2 (List.nodup_range _)) hlt (length_ranks _)
    (List.length_replicate _ _)
    (fun k hk hnot => absurd (hall k hk) hnot)
    (fun k _ hk _ hnot _ _ => absurd (hall k hk) hnot)
    (by simp [find_nonzero_ranks, hmlen]) hst
  refine ⟨st, hst, ?_, a2, a1, getD_eq_zero_of_find_nonzero_nil a5, a5⟩
  apply isPermutation_of_injective
  · intro k hk
    rw [a2] at hk ⊢
    exact a3 k hk
  · intro k k2 hk hk2 he
    rw [a2] at hk hk2
    exact a4 k k2 hk hk2 he

/-- C11: each proposal ranking drawn inside `compute_importance_sampling_estimate` uses
only ranks not yet used.  Over the reals, for every alpha, every item order that is a
permutation of `0..n_items-1` and uniform draws strictly between `0` and `1`: (a) in any
state with a rank still marked unused in `support`, the search for the first cumulative
probability exceeding the draw finds an index, and the rank `idx + 1` assigned is one
still marked unused (`support(idx) ≠ 0`), which the step then marks used; (b) every step
that returns has assigned such a rank; (c) the `n_items` steps of a sample all return,
after them the vector `ranks` is a permutation of `1..n_items` and `support` is all zero,
and this vector is the one scored in `partfun`. -/
theorem sampled_ranks_use_unused_ranks
    (get_rank_distance : List Int → List Int → String → ℝ) (alpha : ℝ) (n_items : Nat)
    (metric : String) (d : SampleDraws ℝ) (hd : AdmissibleDraws n_items d) :
    (∀ (st : List Int × List Int × ℝ) (jj : Nat), find_nonzero st.1 ≠ [] → jj < n_items →
      ∃ idx, idx < st.1.length ∧ st.1.getD idx 0 ≠ 0 ∧ ∃ lq,
        sample_rank_step Real.exp Real.log alpha n_items metric (ranks n_items) d.u jj st
          = some (st.1.set idx 0, st.2.1.set jj ((idx : Int) + 1), lq)) ∧
    (∀ (st st1 : List Int × List Int × ℝ) (jj : Nat),
      sample_rank_step Real.exp Real.log alpha n_items metric (ranks n_items) d.u jj st
        = some st1 →
      ∃ idx, idx < st.1.length ∧ st.1.getD idx 0 ≠ 0 ∧ st1.1 = st.1.set idx 0 ∧
        st1.2.1 = st.2.1.set jj ((idx : Int) + 1)) ∧
    ∃ (support ranks_out : List Int) (log_q : ℝ),
      sample_ranks_loop Real.exp Real.log alpha n_items metric (ranks n_items) d.u
        ((List.range n_items).map (fun j => d.myind.getD j 0))
        (ranks n_items, List.replicate n_items 0, 0) = some (support, ranks_out, log_q) ∧
      IsPermutation ranks_out ∧ ranks_out.length = n_items ∧
      (∀ v : Int, 1 ≤ v → v ≤ n_items → ranks_out.count v = 1) ∧
      support.length = n_items ∧ (∀ i, support.getD i 0 = 0) ∧
      sample_partfun Real.exp Real.log get_rank_distance alpha n_items metric d
        = some (-alpha / (n_items : ℝ) * get_rank_distance ranks_out (ranks n_items) metric
            - log_q) := by
  refine ⟨?_, ?_, ?_⟩
  · intro st jj hne hjj
    have hj : jj < d.u.length := by rw [hd.1]; exact hjj
    have hmem : d.u.getD jj 0 ∈ d.u := by
      rw [List.getD_eq_getElem _ 0 hj]
      exact List.getElem_mem hj
    obtain ⟨hu0, hu1⟩ := hd.2.1 _ hmem
    obtain ⟨idx, hidx, lq, hstep⟩ :=
      sample_rank_step_some alpha n_items metric (ranks n_items) d.u jj st hne hu0 hu1
    obtain ⟨h1, h2⟩ := mem_find_nonzero.1 hidx
    exact ⟨idx, h1, h2, lq, hstep⟩
  · intro st st1 jj hstep
    obtain ⟨i0, -, hmem, hst1⟩ :=
      sample_rank_step_inv Real.exp Real.log alpha n_items metric (ranks n_items) d.u jj
        st st1 hstep
    obtain ⟨h1, h2⟩ := mem_find_nonzero.1 hmem
    refine ⟨_, h1, h2, ?_, ?_⟩
    · rw [hst1]
    · rw [hst1]
  · obtain ⟨st, hst, hperm, hl2, hl1, hzero, -⟩ :=
      sample_ranks_loop_result alpha n_items metric d hd
    refine ⟨st.1, st.2.1, st.2.2, hst, hperm, hl2, ?_, hl1, hzero, ?_⟩
    · intro v hv1 hv2
      exact isPermutation_count_eq_one hperm hv1 (by rw [hl2]; exact hv2)
    · simp only [sample_partfun, hst]

theorem sampled_ranks_use_unused_ranks_witness :
    ∃ (support ranks_out : List Int) (log_q : ℝ),
      sample_ranks_loop Real.exp Real.log 1 2 "footrule" (ranks 2) [1 / 2, 1 / 3]
        ((List.range 2).map (fun j => ([1, 0] : List Nat).getD j 0))
        (ranks 2, List.replicate 2 0, 0) = some (support, ranks_out, log_q) ∧
      IsPermutation ranks_out := by
  obtain ⟨-, -, support, ranks_out, log_q, h1, h2, -⟩ :=
    sampled_ranks_use_unused_ranks (fun _ _ _ => 0) 1 2 "footrule"
      ⟨[1 / 2, 1 / 3], [1, 0]⟩
      (by
        refine ⟨rfl, ?_, (by decide : List.Perm [1, 0] (List.range 2))⟩
        intro x hx
        simp only [List.mem_cons, List.mem_singleton, List.not_mem_nil, or_false] at hx
        rcases hx with hx | hx <;> rw [hx] <;> norm_num)
  exact ⟨support, ranks_out, log_q, h1, h2⟩

/-! ## The estimate at `alpha = 0` -/

theorem raw_log_prob_alpha_zero (n_items : Nat) (p : Nat) (r2 : ℝ) (inds : List Nat) :
    (inds.map (fun (i : Nat) => (i : ℝ) + 1)).map
        (fun x => -(0 : ℝ) / (n_items : ℝ) * |x - r2| ^ p)
      = List.replicate inds.length 0 := by
  induction inds with
  | nil => rfl
  | cons x xs ih =>
    simp only [List.map_cons, List.length_cons, List.replicate_succ, ih]
    simp

theorem normalised_replicate_zero (m i0 : Nat) (hi0 : i0 < m) :
    ((List.replicate m (0 : ℝ)).map
        (fun x => x - Real.log (((List.replicate m (0 : ℝ)).map Real.exp).sum))).getD i0 0
      = -Real.log (m : ℝ) := by
  have hsum : ((List.replicate m (0 : ℝ)).map Real.exp).sum = (m : ℝ) := by simp
  rw [hsum, List.map_replicate, List.getD_eq_getElem _ _ (by simpa using hi0),
    List.getElem_replicate, zero_sub]

theorem log_prob_vec_alpha_zero (n_items : Nat) (metric : String) (rho : List Int)
    (inds : List Nat) (jj i0 : Nat) (hi0 : i0 < inds.length) :
    (log_prob_vec Real.exp Real.log 0 n_items metric rho inds jj).getD i0 0
      = -Real.log (inds.length : ℝ) := by
  unfold log_prob_vec
  simp only []
  rw [raw_log_prob_alpha_zero]
  exact normalised_replicate_zero inds.length i0 hi0

theorem sample_ranks_loop_log_q_zero (n_items : Nat) (metric : String) (rho : List Int)
    (u : List ℝ) (js : List Nat) :
    ∀ st st1 : List Int × List Int × ℝ, (find_nonzero st.1).length = js.length →
      sample_ranks_loop Real.exp Real.log 0 n_items metric rho u js st = some st1 →
      st1.2.2 = st.2.2 - Real.log (js.length.factorial : ℝ) := by
  induction js with
  | nil =>
    intro st st1 _ hloop
    simp only [sample_ranks_loop, Option.some.injEq] at hloop
    subst hloop
    simp
  | cons jj rest ih =>
    intro st st1 hcount hloop
    cases hstep : sample_rank_step Real.exp Real.log 0 n_items metric rho u jj st with
    | none => simp [sample_ranks_loop, hstep] at hloop
    | some st2 =>
      simp only [sample_ranks_loop, hstep] at hloop
      obtain ⟨i0, hi0, hmem, hst2⟩ :=
        sample_rank_step_inv Real.exp Real.log 0 n_items metric rho u jj st st2 hstep
      have hlp := log_prob_vec_alpha_zero n_items metric rho (find_nonzero st.1) jj i0 hi0
      have hset := length_find_nonzero_set hmem
      simp only [List.length_cons] at hcount
      have hcount2 : (find_nonzero st2.1).length = rest.length := by
        rw [hst2]
        simp only []
        omega
      have h2 := ih st2 st1 hcount2 hloop
      have hq : st2.2.2 = st.2.2 - Real.log ((rest.length : ℝ) + 1) := by
        rw [hst2]
        simp only []
        rw [hlp, hcount]
        push_cast
        ring
      rw [h2, hq, List.length_cons, Nat.factorial_succ]
      push_cast
      have hpos1 : ((rest.length : ℝ) + 1) ≠ 0 := by positivity
      have hpos2 : (rest.length.factorial : ℝ) ≠ 0 := by positivity
      rw [Real.log_mul hpos1 hpos2]
      ring

theorem collect_const {α β : Type} (f : α → Option β) (l : List α) (y : β)
    (h : ∀ x ∈ l, f x = some y) : collect f l = some (List.replicate l.length y) := by
  induction l with
  | nil => rfl
  | cons x xs ih =>
    have hx := h x (List.mem_cons_self _ _)
    have hxs := ih (fun z hz => h z (List.mem_cons_of_mem _ hz))
    simp only [collect, hx, hxs, List.length_cons, List.replicate_succ]

theorem sample_partfun_alpha_zero (get_rank_distance : List Int → List Int → String → ℝ)
    (n_items : Nat) (metric : String) (d : SampleDraws ℝ) (hd : AdmissibleDraws n_items d) :
    ∃ st : List Int × List Int × ℝ,
      sample_ranks_loop Real.exp Real.log 0 n_items metric (ranks n_items) d.u
        ((List.range n_items).map (fun j => d.myind.getD j 0))
        (ranks n_items, List.replicate n_items 0, 0) = some st ∧
      st.2.2 = -Real.log (n_items.factorial : ℝ) ∧
      -(0 : ℝ) / (n_items : ℝ) * get_rank_distance st.2.1 (ranks n_items) metric = 0 ∧
      sample_partfun Real.exp Real.log get_rank_distance 0 n_items metric d
        = some (Real.log (n_items.factorial : ℝ)) := by
  obtain ⟨st, hst, -, -, -, -, -⟩ := sample_ranks_loop_result 0 n_items metric d hd
  have hq := sample_ranks_loop_log_q_zero n_items metric (ranks n_items) d.u _ _ st
    (by simp [find_nonzero_ranks]) hst
  simp only [List.length_map, List.length_range, zero_sub] at hq
  refine ⟨st, hst, hq, by simp, ?_⟩
  simp only [sample_partfun, hst, hq]
  simp

theorem collect_range_spec {β : Type} (f : Nat → Option β) (n : Nat) (d : β)
    (h : ∀ t, t < n → ∃ y, f t = some y) :
    ∃ r, collect f (List.range n) = some r ∧ r.length = n ∧
      ∀ t, t < n → f t = some (r.getD t d) := by
  obtain ⟨r, hr⟩ := collect_some_of_forall f (List.range n)
    (fun t ht => h t (List.mem_range.1 ht))
  obtain ⟨hlen, hget⟩ := collect_some_spec f (List.range n) r hr
  rw [List.length_range] at hlen
  refine ⟨r, hr, hlen, ?_⟩
  intro t ht
  have := hget t (by rw [List.length_range]; exact ht) (by rw [hlen]; exact ht)
  rw [List.getElem_range] at this
  rw [this, List.getD_eq_getElem r d (by rw [hlen]; exact ht)]

theorem logZ_entry_some (get_rank_distance : List Int → List Int → String → ℝ) (alpha : ℝ)
    (n_items : Nat) (metric : String) (nmc : Nat) (draws : Nat → SampleDraws ℝ)
    (hnmc : 1 ≤ nmc) (hd : ∀ i, i < nmc → AdmissibleDraws n_items (draws i)) :
    ∃ y, logZ_entry Real.exp Real.log get_rank_distance alpha n_items metric nmc draws
      = some y := by
  obtain ⟨pf, hpf, hlen, -⟩ := collect_range_spec
    (fun i => sample_partfun Real.exp Real.log get_rank_distance alpha n_items metric
      (draws i)) nmc 0
    (fun i hi => sample_partfun_some get_rank_distance alpha n_items metric (draws i)
      (hd i hi))
  obtain ⟨m, -, -, -, hlm, -⟩ := log_mean_exp_spec pf nmc hnmc hlen
  refine ⟨m + Real.log ((pf.map (fun p => Real.exp (p - m))).sum) - Real.log (nmc : ℝ), ?_⟩
  have hpv : partfun_vec Real.exp Real.log get_rank_distance alpha n_items metric nmc draws
      = some pf := hpf
  simp only [logZ_entry, hpv, hlm]

theorem logZ_entry_alpha_zero (get_rank_distance : List Int → List Int → String → ℝ)
    (n_items : Nat) (metric : String) (nmc : Nat) (draws : Nat → SampleDraws ℝ)
    (hnmc : 1 ≤ nmc) (hd : ∀ i, i < nmc → AdmissibleDraws n_items (draws i)) :
    partfun_vec Real.exp Real.log get_rank_distance 0 n_items metric nmc draws
      = some (List.replicate nmc (Real.log (n_items.factorial : ℝ))) ∧
    logZ_entry Real.exp Real.log get_rank_distance 0 n_items metric nmc draws
      = some (Real.log (n_items.factorial : ℝ)) := by
  have hpv : partfun_vec Real.exp Real.log get_rank_distance 0 n_items metric nmc draws
      = some (List.replicate nmc (Real.log (n_items.factorial : ℝ))) := by
    have := collect_const
      (fun i => sample_partfun Real.exp Real.log get_rank_distance 0 n_items metric
        (draws i)) (List.range nmc) (Real.log (n_items.factorial : ℝ))
      (fun i hi => (sample_partfun_alpha_zero get_rank_distance n_items metric (draws i)
        (hd i (List.mem_range.1 hi))).choose_spec.2.2.2)
    rw [List.length_range] at this
    exact this
  refine ⟨hpv, ?_⟩
  obtain ⟨m, -, -, -, hlm, heq⟩ := log_mean_exp_spec
    (List.replicate nmc (Real.log (n_items.factorial : ℝ))) nmc hnmc
    (List.length_replicate _ _)
  simp only [logZ_entry, hpv, hlm, Option.some.injEq]
  rw [heq]
  have hfac : (0 : ℝ) < (n_items.factorial : ℝ) := by positivity
  have hn : (nmc : ℝ) ≠ 0 := by positivity
  have hsum : ((List.replicate nmc (Real.log (n_items.factorial : ℝ))).map Real.exp).sum
      = (nmc : ℝ) * (n_items.factorial : ℝ) := by
    simp [Real.exp_log hfac]
  rw [hsum, one_div, ← mul_assoc, inv_mul_cancel₀ hn, one_mul]

/-- C13: at `alpha = 0` the importance-sampling estimate equals `log(n_items!)` exactly,
whatever the random draws.  Over the reals, for `n_items ≥ 1`, `nmc ≥ 1`, every metric and
all admissible draws (item orders that are permutations, uniforms strictly between `0` and
`1`), if `alpha_vector(t) = 0` then (a) every sample for this alpha has
`log_q = -log(n_items!)` and target log-density `0`, so the value stored in `partfun` is
`log(n_items!)`; (b) the vector `partfun` has `nmc` entries, all equal to
`log(n_items!)`; (c) the function returns and its entry `logZ(t)` is `log(n_items!)`. -/
theorem estimate_at_alpha_zero (get_rank_distance : List Int → List Int → String → ℝ)
    (alpha_vector : List ℝ) (n_items : Nat) (metric : String) (nmc : Nat)
    (draws : Nat → Nat → SampleDraws ℝ) (t : Nat) (_hn : 1 ≤ n_items) (hnmc : 1 ≤ nmc)
    (hd : ∀ t i, t < alpha_vector.length → i < nmc → AdmissibleDraws n_items (draws t i))
    (ht : t < alpha_vector.length) (h0 : alpha_vector.getD t 0 = 0) :
    (∀ i, i < nmc →
      ∃ (support ranks_out : List Int) (log_q : ℝ),
        sample_ranks_loop Real.exp Real.log (alpha_vector.getD t 0) n_items metric
          (ranks n_items) (draws t i).u
          ((List.range n_items).map (fun j => (draws t i).myind.getD j 0))
          (ranks n_items, List.replicate n_items 0, 0) = some (support, ranks_out, log_q) ∧
        log_q = -Real.log (n_items.factorial : ℝ) ∧
        -(alpha_vector.getD t 0) / (n_items : ℝ)
          * get_rank_distance ranks_out (ranks n_items) metric = 0 ∧
        sample_partfun Real.exp Real.log get_rank_distance (alpha_vector.getD t 0) n_items
          metric (draws t i) = some (Real.log (n_items.factorial : ℝ))) ∧
    (∃ partfun,
      partfun_vec Real.exp Real.log get_rank_distance (alpha_vector.getD t 0) n_items metric
        nmc (draws t) = some partfun ∧
      partfun.length = nmc ∧ ∀ p ∈ partfun, p = Real.log (n_items.factorial : ℝ)) ∧
    ∃ logZ,
      compute_importance_sampling_estimate Real.exp Real.log get_rank_distance alpha_vector
        n_items metric nmc draws = some logZ ∧
      logZ.length = alpha_vector.length ∧
      logZ.getD t 0 = Real.log (n_items.factorial : ℝ) := by
  rw [h0]
  refine ⟨?_, ?_, ?_⟩
  · intro i hi
    obtain ⟨st, h1, h2, h3, h4⟩ :=
      sample_partfun_alpha_zero get_rank_distance n_items metric (draws t i) (hd t i ht hi)
    exact ⟨st.1, st.2.1, st.2.2, h1, h2, h3, h4⟩
  · refine ⟨_, (logZ_entry_alpha_zero get_rank_distance n_items metric nmc (draws t) hnmc
      (fun i hi => hd t i ht hi)).1, List.length_replicate _ _, ?_⟩
    intro p hp
    exact List.eq_of_mem_replicate hp
  · obtain ⟨logZ, hZ, hlen, hget⟩ := collect_range_spec
      (fun s => logZ_entry Real.exp Real.log get_rank_distance (alpha_vector.getD s 0)
        n_items metric nmc (draws s)) alpha_vector.length 0
      (fun s hs => logZ_entry_some get_rank_distance _ n_items metric nmc (draws s) hnmc
        (fun i hi => hd s i hs hi))
    refine ⟨logZ, hZ, hlen, ?_⟩
    have h1 := hget t ht
    simp only [h0] at h1
    rw [(logZ_entry_alpha_zero get_rank_distance n_items metric nmc (draws t) hnmc
      (fun i hi => hd t i ht hi)).2] at h1
    exact (Option.some.inj h1).symm

theorem estimate_at_alpha_zero_witness :
    ∃ logZ,
      compute_importance_sampling_estimate Real.exp Real.log (fun _ _ _ => 0) [1, 0] 2
        "footrule" 2 (fun _ _ => ⟨[1 / 2, 1 / 3], [1, 0]⟩) = some logZ ∧
      logZ.length = ([1, 0] : List ℝ).length ∧
      logZ.getD 1 0 = Real.log (Nat.factorial 2 : ℝ) := by
  obtain ⟨-, -, h⟩ := estimate_at_alpha_zero
    (fun _ _ _ => 0) [1, 0] 2 "footrule" 2 (fun _ _ => ⟨[1 / 2, 1 / 3], [1, 0]⟩) 1
    (by decide) (by decide)
    (by
      intro t i _ _
      refine ⟨rfl, ?_, (by decide : List.Perm [1, 0] (List.range 2))⟩
      intro x hx
      simp only [List.mem_cons, List.mem_singleton, List.not_mem_nil, or_false] at hx
      rcases hx with hx | hx <;> rw [hx] <;> norm_num)
    (by decide) rfl
  exact h

end BayesMallows
